import Mathlib

/-!
Shallow embedding of the `those_dicts` graph containers (`GraphDict` and
`TwoWayDict` from `those_dicts/__init__.py`).

A Python `GraphDict` is a `dict` whose keys are arbitrary hashable nodes and
whose stored values are sets of integer positions (ranks in the current key
insertion order).  We model it as a list of (node, position-set) pairs in
insertion order.  Python values that appear as nodes are modelled by the
inductive type `PyVal`; non-hashable values (such as lists) are modelled by
the `unhashable` constructor, and the Python value `None` by `PyVal.none`.
Fallible operations return `Except PyErr`.
-/

namespace ThoseDicts

/-- A Python value usable as a dictionary key or value in the model:
`None`, a string, an integer, or a non-hashable object (such as a list),
tagged with an identifier so distinct unhashable objects stay distinct. -/
inductive PyVal where
  | none
  | str (s : String)
  | int (n : Int)
  | unhashable (id : Nat)
deriving DecidableEq

/-- `isinstance(x, Hashable)` for the modelled values: everything except the
`unhashable` constructor. -/
def PyVal.hashable : PyVal → Bool
  | .unhashable _ => false
  | _ => true

/-- Python exceptions raised by the modelled operations. -/
inductive PyErr where
  | typeError
  | keyError
  | indexError
deriving DecidableEq

instance {ε α : Type} [DecidableEq ε] [DecidableEq α] : DecidableEq (Except ε α) := fun x y =>
  match x, y with
  | .ok a, .ok b =>
    if h : a = b then isTrue (by rw [h]) else isFalse (fun hh => h (Except.ok.inj hh))
  | .error a, .error b =>
    if h : a = b then isTrue (by rw [h]) else isFalse (fun hh => h (Except.error.inj hh))
  | .ok _, .error _ => isFalse (fun h => Except.noConfusion h)
  | .error _, .ok _ => isFalse (fun h => Except.noConfusion h)

/-- Shape of a value returned by `GraphDict.__getitem__` /
`TwoWayDict.__getitem__`: Python `None`, a single node, or a set of nodes. -/
inductive PyRet where
  | pnone
  | scalar (v : PyVal)
  | vset (s : Finset PyVal)
deriving DecidableEq

/-- The state of a `GraphDict`: the underlying `dict` as an insertion-ordered
list of (key, set-of-positions) entries.  Python `dict` keys are unique; this
well-formedness fact is carried as a hypothesis (`wfd`) in the theorems. -/
abbrev GD := List (PyVal × Finset ℕ)

/-- `list(self)`: the keys in insertion order. -/
def nodes (d : GD) : List PyVal := d.map Prod.fst

/-- `key in self`. -/
def hasNode (d : GD) (k : PyVal) : Prop := k ∈ nodes d

instance (d : GD) (k : PyVal) : Decidable (hasNode d k) := by
  unfold hasNode; infer_instance

/-- `list(self).index(k)`: position of the first entry whose key is `k`.
(Python raises `ValueError` when `k` is absent; the model returns the length,
and all uses below are guarded by membership.) -/
def pos : GD → PyVal → ℕ
  | [], _ => 0
  | e :: rest, k => if e.1 = k then 0 else pos rest k + 1

/-- `list(self)[i]`: the key at position `i`.  (Python raises `IndexError`
out of range; the model returns `PyVal.none` and uses are guarded.) -/
def nodeAt (d : GD) (i : ℕ) : PyVal := (nodes d).getD i PyVal.none

/-- The entry at position `i` (guarded uses only). -/
def entryAt (d : GD) (i : ℕ) : PyVal × Finset ℕ := d.getD i (PyVal.none, ∅)

/-- `dict.__getitem__(self, k)`: the stored set of positions of `k`
(`∅` when `k` is absent; uses are guarded by membership). -/
def edgesOf : GD → PyVal → Finset ℕ
  | [], _ => ∅
  | e :: rest, k => if e.1 = k then e.2 else edgesOf rest k

/-- `dict.__setitem__(self, k, v)`: replace the entry of `k` in place when
present, otherwise append a new entry at the end. -/
def dictSet : GD → PyVal → Finset ℕ → GD
  | [], k, v => [(k, v)]
  | e :: rest, k, v => if e.1 = k then (k, v) :: rest else e :: dictSet rest k v

/-- `dict.__delitem__(self, k)`: physically remove the entry of `k`
(guarded uses only; Python raises `KeyError` when absent). -/
def pyDelItem : GD → PyVal → GD
  | [], _ => []
  | e :: rest, k => if e.1 = k then rest else e :: pyDelItem rest k

/-- `set(item for _set in dict.values(self) for item in _set)`:
the union of all stored position sets. -/
def allTargets : GD → Finset ℕ
  | [] => ∅
  | e :: rest => e.2 ∪ allTargets rest

/-- `GraphDict.__setitem__(key, value)` after the type checks: the four
membership branches of the source. -/
def gSetCore (d : GD) (key value : PyVal) : GD :=
  if hasNode d key ∧ hasNode d value then
    dictSet d key (edgesOf d key ∪ {pos d value})
  else if hasNode d key ∧ ¬ hasNode d value then
    if value ≠ PyVal.none then
      let d1 := dictSet d value ∅
      dictSet d1 key (edgesOf d1 key ∪ {pos d1 value})
    else d
  else if ¬ hasNode d key ∧ hasNode d value then
    dictSet d key {pos d value}
  else
    if value ≠ PyVal.none then
      let d1 := dictSet d value ∅
      dictSet d1 key {pos d1 value}
    else dictSet d key ∅

/-- `GraphDict.__setitem__`: `TypeError` when key or value is non-hashable or
the key is `None`; otherwise the membership branches. -/
def gSet (d : GD) (key value : PyVal) : Except PyErr GD :=
  if !key.hashable || !value.hashable then .error .typeError
  else if key = PyVal.none then .error .typeError
  else .ok (gSetCore d key value)

/-- `set(list(self)[idx] for idx in targets)` / `None` for an empty set:
the result shape of `GraphDict.__getitem__` on a present key. -/
def resolveTargets (d : GD) (t : Finset ℕ) : PyRet :=
  if t = ∅ then .pnone else .vset (t.image (nodeAt d))

/-- `GraphDict.__getitem__`: `KeyError` on an absent key; `None` when the
stored set is empty; otherwise the set of target nodes. -/
def gGet (d : GD) (item : PyVal) : Except PyErr PyRet :=
  if hasNode d item then .ok (resolveTargets d (edgesOf d item)) else .error .keyError

/-- `GraphDict.__delitem__` (soft delete): zero the key's stored set, then
discard the key's position from every stored set (guarded uses only). -/
def gDel (d : GD) (key : PyVal) : GD :=
  let delIdx := pos d key
  let d1 := dictSet d key ∅
  d1.map (fun e => (e.1, e.2.erase delIdx))

/-- `GraphDict.delete_link(key, value)`: discard value's position from key's
stored set when both are present; no-op when the key is absent. -/
def delete_link (d : GD) (key value : PyVal) : GD :=
  if hasNode d key then
    dictSet d key
      (if hasNode d value then (edgesOf d key).erase (pos d value) else edgesOf d key)
  else d

/-- `GraphDict.disconnect(key1, key2)`: remove the links in both directions. -/
def disconnect (d : GD) (key1 key2 : PyVal) : GD :=
  delete_link (delete_link d key1 key2) key2 key1

/-- `lone_indices`: sorted list of positions with an empty stored set
(`no_destination_ids`) and no incoming edge (`no_source_ids`). -/
def noDest (d : GD) : Finset ℕ :=
  ((d.filter (fun e => e.2.card = 0)).map (fun e => pos d e.1)).toFinset

/-- `set(range(len(self)))` minus all edge targets. -/
def noSource (d : GD) : Finset ℕ := Finset.range d.length \ allTargets d

/-- The intersection of `no_destination_ids` and `no_source_ids`. -/
def loneF (d : GD) : Finset ℕ := noDest d ∩ noSource d

/-- `sorted(list(no_destination_ids & no_source_ids))`: the elements of
`loneF d` in increasing order.  Since `loneF d ⊆ range len(self)` by
construction, the sorted listing is the increasing enumeration of
`range len(self)` restricted to `loneF d`. -/
def loneList (d : GD) : List ℕ := (List.range d.length).filter (fun i => i ∈ loneF d)

/-- The loop `for i in range(len(lone_indices) - 1):
num_steps.extend([i + 1] * (lone_indices[i + 1] - lone_indices[i]))`,
written as a recursion over consecutive pairs carrying the loop counter. -/
def stepBlocks : ℕ → List ℕ → List ℕ
  | _, [] => []
  | _, [_] => []
  | i, a :: b :: rest => List.replicate (b - a) (i + 1) ++ stepBlocks (i + 1) (b :: rest)

/-- The `num_steps` table of `GraphDict.reindex`: per position, the shift to
subtract from edge targets.  Built as in the source: `[0] * (lone[0] + 1)`,
then the consecutive-pair blocks, then
`[num_steps[-1] + 1] * (len(self) - lone[-1] - 1)`. -/
def numSteps (lone : List ℕ) (n : ℕ) : List ℕ :=
  match lone with
  | [] => []
  | l0 :: _ =>
    let mid := List.replicate (l0 + 1) 0 ++ stepBlocks 0 lone
    mid ++ List.replicate (n - lone.getLastD 0 - 1) (mid.getLastD 0 + 1)

/-- The loop `for i, (k, v) in enumerate(dict.items(self))` of `reindex`:
entries at lone positions are skipped (`continue`), the others get every
target `item` replaced by `item - num_steps[item]`.  The in-place
`dict.__setitem__(self, k, new_v)` is modelled positionally (Python dict keys
are unique, so updating by key is updating the entry in place). -/
def shiftEntries (steps : List ℕ) (lone : List ℕ) : ℕ → GD → GD
  | _, [] => []
  | i, e :: rest =>
    (if i ∈ lone then e else (e.1, e.2.image (fun item => item - steps.getD item 0)))
      :: shiftEntries steps lone (i + 1) rest

/-- `GraphDict.reindex`: compute the lone positions; when none exist do
nothing, otherwise shift the surviving targets by `num_steps` and delete the
lone entries in descending position order
(`for i in lone_indices[::-1]: dict.__delitem__(self, list(self)[i])`). -/
def reindex (d : GD) : GD :=
  let lone := loneList d
  if lone = [] then d
  else
    let steps := numSteps lone d.length
    let d1 := shiftEntries steps lone 0 d
    lone.reverse.foldl (fun acc i => pyDelItem acc (nodeAt acc i)) d1

/-- `GraphDict.pop(key)`: `self[key]`, then soft delete, then `reindex`. -/
def gPop (d : GD) (key : PyVal) : Except PyErr (PyRet × GD) :=
  match gGet d key with
  | .error e => .error e
  | .ok item => .ok (item, reindex (gDel d key))

/-- `GraphDict.popitem()`: take the last-inserted key, read it, compute
`idx = len(self) - 1`, physically delete the entry, then discard `idx` from
every remaining stored set.  `IndexError` on an empty container
(`list(self)[-1]`). -/
def gPopitem (d : GD) : Except PyErr ((PyVal × PyRet) × GD) :=
  match (nodes d).getLast? with
  | Option.none => .error .indexError
  | Option.some key =>
    match gGet d key with
    | .error e => .error e
    | .ok val =>
      let idx := d.length - 1
      let d1 := pyDelItem d key
      .ok ((key, val), d1.map (fun e => (e.1, e.2.erase idx)))

/-- `GraphDict.get_dict()`: the keys whose stored set is non-empty, each
paired with its `self[k]` value. -/
def get_dict (d : GD) : List (PyVal × PyRet) :=
  (d.filter (fun e => 0 < (edgesOf d e.1).card)).map
    (fun e => (e.1, resolveTargets d (edgesOf d e.1)))

/-- `set.pop()` on the copied result set of `GraphDict.__getitem__`, modelled
as taking the element of least position among the positions below `n`
(Python's `set.pop` removes an unspecified element; every use in the claims
is on a singleton set of in-range positions, where any choice agrees). -/
def popFromSet (n : ℕ) (s : Finset ℕ) : Option ℕ :=
  ((List.range n).filter (fun i => i ∈ s)).head?

/-- `TwoWayDict.__getitem__`: the single partner node, or `None` when the
stored set is empty; `KeyError` on an absent key. -/
def twGetVal (d : GD) (item : PyVal) : Except PyErr PyVal :=
  if hasNode d item then
    match popFromSet d.length (edgesOf d item) with
    | Option.none => .ok PyVal.none
    | Option.some i => .ok (nodeAt d i)
  else .error .keyError

/-- `self[key]` inside `TwoWayDict.__setitem__` (the key is present in every
use, so the `KeyError` arm is unreachable there). -/
def twPartner (d : GD) (item : PyVal) : PyVal :=
  match twGetVal d item with
  | .ok v => v
  | .error _ => PyVal.none

/-- `TwoWayDict.__setitem__` after the hashability check: the four membership
branches of the source.  In the last branch the transient placeholder
`dict.__setitem__(self, value, "")` is modelled as an empty set (it is
overwritten two statements later and only the key order matters in between). -/
def twSetCore (d : GD) (key value : PyVal) : GD :=
  if hasNode d key ∧ hasNode d value then
    let d1 := disconnect d key value
    let d2 := dictSet d1 key {pos d1 value}
    dictSet d2 value {pos d2 key}
  else if hasNode d key ∧ ¬ hasNode d value then
    let d1 := disconnect d key (twPartner d key)
    let d2 := dictSet d1 value {pos d1 key}
    dictSet d2 key {pos d2 value}
  else if ¬ hasNode d key ∧ hasNode d value then
    let d1 := disconnect d value (twPartner d value)
    let d2 := dictSet d1 key {pos d1 value}
    dictSet d2 value {pos d2 key}
  else
    let d1 := dictSet d value ∅
    let d2 := dictSet d1 key {pos d1 value}
    dictSet d2 value {pos d2 key}

/-- `TwoWayDict.__setitem__`: `TypeError` only when key or value is
non-hashable (unlike `GraphDict.__setitem__`, there is no `None`-key check);
otherwise the membership branches. -/
def twSet (d : GD) (key value : PyVal) : Except PyErr GD :=
  if !key.hashable || !value.hashable then .error .typeError
  else .ok (twSetCore d key value)

/-- One mutating call of the claim "any sequence of set / delete_link /
disconnect calls" on a `GraphDict`. -/
inductive GOp where
  | setOp (k v : PyVal)
  | delLinkOp (k v : PyVal)
  | disconnectOp (k v : PyVal)

/-- Apply one call; a call that raises (`TypeError`) leaves the container
unchanged. -/
def applyOp (d : GD) : GOp → GD
  | .setOp k v => match gSet d k v with | .ok d' => d' | .error _ => d
  | .delLinkOp k v => delete_link d k v
  | .disconnectOp k v => disconnect d k v

/-- Apply a sequence of calls to a fresh (empty) `GraphDict`. -/
def applyOps (ops : List GOp) : GD := ops.foldl applyOp []

/-- Well-formedness of a container state: distinct keys (a Python `dict`
invariant) and every stored position in range. -/
def wfd (d : GD) : Prop :=
  (nodes d).Nodup ∧ ∀ e ∈ d, ∀ t ∈ e.2, t < d.length

instance (d : GD) : Decidable (wfd d) := by
  unfold wfd; infer_instance

/-- A present node is lone when its stored set is empty and its position has
no incoming edge — the purge condition of `reindex`. -/
def isLone (d : GD) (k : PyVal) : Prop :=
  edgesOf d k = ∅ ∧ pos d k ∉ allTargets d

instance (d : GD) (k : PyVal) : Decidable (isLone d k) := by
  unfold isLone; infer_instance

/-- The number of elements of `L` strictly below `j`. -/
def countLt (L : List ℕ) (j : ℕ) : ℕ := (L.filter (fun l => decide (l < j))).length

/-- The number of lone positions strictly below `t`: the amount by which a
surviving edge target `t` is decreased by `reindex`. -/
def countLoneLt (d : GD) (t : ℕ) : ℕ := countLt (loneList d) t

/-- A raising `TwoWayDict.__setitem__` call propagates the exception and the
container is left as it was: the observable state after the call. -/
def twApplySet (d : GD) (k v : PyVal) : GD :=
  match twSet d k v with
  | .ok d' => d'
  | .error _ => d

/-- The `TwoWayDict` state reached from empty by
`t["a"] = "b"; t["c"] = "d"; t["a"] = "c"`:
keys in insertion order b, a, d, c with stored position sets {1}, {3}, {3}, {1}. -/
def C1state : GD :=
  [(PyVal.str "b", {1}), (PyVal.str "a", {3}), (PyVal.str "d", {3}), (PyVal.str "c", {1})]

/-- Specification device for the deletion loop of `reindex`: keep the entries
whose running position (counter starting at `i`) is not in `L`. -/
def keepEntries (L : List ℕ) : ℕ → GD → GD
  | _, [] => []
  | i, e :: rest =>
    if i ∈ L then keepEntries L (i + 1) rest else e :: keepEntries L (i + 1) rest

/-- Specification device: the number of counters in `[i, i + j)` that belong
to `L`. -/
def hitsBelow (L : List ℕ) : ℕ → ℕ → ℕ
  | _, 0 => 0
  | i, j + 1 => (if i ∈ L then 1 else 0) + hitsBelow L (i + 1) j

/-! ## Basic lemmas about the dictionary model -/

@[simp] theorem nodes_nil : nodes ([] : GD) = [] := rfl

@[simp] theorem nodes_cons (e : PyVal × Finset ℕ) (d : GD) :
    nodes (e :: d) = e.1 :: nodes d := rfl

theorem nodes_append (d1 d2 : GD) : nodes (d1 ++ d2) = nodes d1 ++ nodes d2 :=
  List.map_append _ _ _

theorem length_nodes (d : GD) : (nodes d).length = d.length := List.length_map _ _

@[simp] theorem pos_nil (k : PyVal) : pos [] k = 0 := rfl

@[simp] theorem pos_cons (e : PyVal × Finset ℕ) (d : GD) (k : PyVal) :
    pos (e :: d) k = if e.1 = k then 0 else pos d k + 1 := rfl

@[simp] theorem edgesOf_nil (k : PyVal) : edgesOf [] k = ∅ := rfl

@[simp] theorem edgesOf_cons (e : PyVal × Finset ℕ) (d : GD) (k : PyVal) :
    edgesOf (e :: d) k = if e.1 = k then e.2 else edgesOf d k := rfl

@[simp] theorem nodeAt_cons_zero (e : PyVal × Finset ℕ) (d : GD) :
    nodeAt (e :: d) 0 = e.1 := rfl

@[simp] theorem nodeAt_cons_succ (e : PyVal × Finset ℕ) (d : GD) (i : ℕ) :
    nodeAt (e :: d) (i + 1) = nodeAt d i := rfl

@[simp] theorem entryAt_cons_zero (e : PyVal × Finset ℕ) (d : GD) :
    entryAt (e :: d) 0 = e := rfl

@[simp] theorem entryAt_cons_succ (e : PyVal × Finset ℕ) (d : GD) (i : ℕ) :
    entryAt (e :: d) (i + 1) = entryAt d i := rfl

theorem pos_lt_length {d : GD} {k : PyVal} (h : hasNode d k) : pos d k < d.length := by
  induction d with
  | nil => cases h
  | cons e rest ih =>
    by_cases he : e.1 = k
    · simp [he]
    · have hk : k ∈ nodes rest := by
        rcases List.mem_cons.mp h with h' | h'
        · exact absurd h'.symm he
        · exact h'
      simpa [he] using Nat.succ_lt_succ (ih hk)

theorem hasNode_of_pos_lt {d : GD} {k : PyVal} (h : pos d k < d.length) : hasNode d k := by
  induction d with
  | nil => simp at h
  | cons e rest ih =>
    by_cases he : e.1 = k
    · exact List.mem_cons.mpr (Or.inl he.symm)
    · simp only [pos_cons, if_neg he, List.length_cons] at h
      exact List.mem_cons.mpr (Or.inr (ih (Nat.lt_of_succ_lt_succ h)))

theorem nodeAt_pos {d : GD} {k : PyVal} (h : hasNode d k) : nodeAt d (pos d k) = k := by
  induction d with
  | nil => cases h
  | cons e rest ih =>
    by_cases he : e.1 = k
    · simp [he]
    · have hk : k ∈ nodes rest := by
        rcases List.mem_cons.mp h with h' | h'
        · exact absurd h'.symm he
        · exact h'
      simp [he, ih hk]

theorem nodeAt_mem {d : GD} {i : ℕ} (h : i < d.length) : hasNode d (nodeAt d i) := by
  induction d generalizing i with
  | nil => simp at h
  | cons e rest ih =>
    cases i with
    | zero => exact List.mem_cons.mpr (Or.inl rfl)
    | succ j =>
      exact List.mem_cons.mpr (Or.inr (ih (Nat.lt_of_succ_lt_succ h)))

theorem pos_nodeAt {d : GD} (hn : (nodes d).Nodup) {i : ℕ} (h : i < d.length) :
    pos d (nodeAt d i) = i := by
  induction d generalizing i with
  | nil => simp at h
  | cons e rest ih =>
    rcases List.nodup_cons.mp hn with ⟨hne, hn'⟩
    cases i with
    | zero => simp
    | succ j =>
      have hj : j < rest.length := Nat.lt_of_succ_lt_succ h
      have hmem : nodeAt rest j ∈ nodes rest := nodeAt_mem hj
      have : e.1 ≠ nodeAt rest j := fun hcontra => hne (hcontra ▸ hmem)
      simp [this, ih hn' hj]

theorem edgesOf_eq_of_mem {d : GD} (hn : (nodes d).Nodup) {e : PyVal × Finset ℕ}
    (he : e ∈ d) : edgesOf d e.1 = e.2 := by
  induction d with
  | nil => cases he
  | cons f rest ih =>
    rcases List.nodup_cons.mp hn with ⟨hne, hn'⟩
    rcases List.mem_cons.mp he with h' | h'
    · simp [h']
    · have : e.1 ∈ nodes rest := List.mem_map.mpr ⟨e, h', rfl⟩
      have hf : f.1 ≠ e.1 := fun hc => hne (hc ▸ this)
      simp [hf, ih hn' h']

theorem edgesOf_entryAt {d : GD} (hn : (nodes d).Nodup) {i : ℕ} (h : i < d.length) :
    edgesOf d (nodeAt d i) = (entryAt d i).2 := by
  induction d generalizing i with
  | nil => simp at h
  | cons e rest ih =>
    rcases List.nodup_cons.mp hn with ⟨hne, hn'⟩
    cases i with
    | zero => simp
    | succ j =>
      have hj : j < rest.length := Nat.lt_of_succ_lt_succ h
      have hmem : nodeAt rest j ∈ nodes rest := nodeAt_mem hj
      have : e.1 ≠ nodeAt rest j := fun hc => hne (hc ▸ hmem)
      simp [this, ih hn' hj]

theorem entryAt_fst {d : GD} {i : ℕ} (h : i < d.length) : (entryAt d i).1 = nodeAt d i := by
  induction d generalizing i with
  | nil => simp at h
  | cons e rest ih =>
    cases i with
    | zero => simp
    | succ j => exact ih (Nat.lt_of_succ_lt_succ h)

theorem entryAt_mem {d : GD} {i : ℕ} (h : i < d.length) : entryAt d i ∈ d := by
  induction d generalizing i with
  | nil => simp at h
  | cons e rest ih =>
    cases i with
    | zero => exact List.mem_cons.mpr (Or.inl rfl)
    | succ j => exact List.mem_cons.mpr (Or.inr (ih (Nat.lt_of_succ_lt_succ h)))

/-! ### `dictSet` and `pyDelItem` -/

theorem dictSet_eq_set_of_mem {d : GD} {k : PyVal} (h : hasNode d k) (v : Finset ℕ) :
    dictSet d k v = d.set (pos d k) (k, v) := by
  induction d with
  | nil => cases h
  | cons e rest ih =>
    by_cases he : e.1 = k
    · simp [dictSet, he]
    · have hk : k ∈ nodes rest := by
        rcases List.mem_cons.mp h with h' | h'
        · exact absurd h'.symm he
        · exact h'
      simp [dictSet, he, ih hk]

theorem dictSet_eq_append_of_not_mem {d : GD} {k : PyVal} (h : ¬ hasNode d k)
    (v : Finset ℕ) : dictSet d k v = d ++ [(k, v)] := by
  induction d with
  | nil => rfl
  | cons e rest ih =>
    have he : e.1 ≠ k := fun hc => h (List.mem_cons.mpr (Or.inl hc.symm))
    have h' : ¬ hasNode rest k := fun hc => h (List.mem_cons.mpr (Or.inr hc))
    simp [dictSet, he, ih h']

theorem nodes_dictSet_of_mem {d : GD} {k : PyVal} (h : hasNode d k) (v : Finset ℕ) :
    nodes (dictSet d k v) = nodes d := by
  rw [dictSet_eq_set_of_mem h v]
  induction d generalizing k with
  | nil => cases h
  | cons e rest ih =>
    by_cases he : e.1 = k
    · simp [he]
    · have hk : k ∈ nodes rest := by
        rcases List.mem_cons.mp h with h' | h'
        · exact absurd h'.symm he
        · exact h'
      simp [he, ih hk]

theorem length_dictSet_of_mem {d : GD} {k : PyVal} (h : hasNode d k) (v : Finset ℕ) :
    (dictSet d k v).length = d.length := by
  rw [dictSet_eq_set_of_mem h v]; simp

theorem length_dictSet_of_not_mem {d : GD} {k : PyVal} (h : ¬ hasNode d k) (v : Finset ℕ) :
    (dictSet d k v).length = d.length + 1 := by
  rw [dictSet_eq_append_of_not_mem h v]; simp

theorem edgesOf_dictSet_self (d : GD) (k : PyVal) (v : Finset ℕ) :
    edgesOf (dictSet d k v) k = v := by
  induction d with
  | nil => simp [dictSet]
  | cons e rest ih =>
    by_cases he : e.1 = k
    · simp [dictSet, he]
    · simp [dictSet, he, ih]

theorem edgesOf_dictSet_ne (d : GD) {k k' : PyVal} (h : k' ≠ k) (v : Finset ℕ) :
    edgesOf (dictSet d k v) k' = edgesOf d k' := by
  have hkk : ¬ (k = k') := fun hc => h hc.symm
  induction d with
  | nil => simp [dictSet, hkk]
  | cons e rest ih =>
    by_cases he : e.1 = k
    · simp [dictSet, he, hkk]
    · simp [dictSet, he, ih]

theorem mem_dictSet {d : GD} {k : PyVal} {v : Finset ℕ} {e : PyVal × Finset ℕ}
    (h : e ∈ dictSet d k v) : e ∈ d ∨ e = (k, v) := by
  induction d with
  | nil => simp [dictSet] at h; exact Or.inr h
  | cons f rest ih =>
    by_cases hf : f.1 = k
    · simp only [dictSet, if_pos hf] at h
      rcases List.mem_cons.mp h with h' | h'
      · exact Or.inr h'
      · exact Or.inl (List.mem_cons.mpr (Or.inr h'))
    · simp only [dictSet, if_neg hf] at h
      rcases List.mem_cons.mp h with h' | h'
      · exact Or.inl (List.mem_cons.mpr (Or.inl h'))
      · rcases ih h' with h'' | h''
        · exact Or.inl (List.mem_cons.mpr (Or.inr h''))
        · exact Or.inr h''

theorem pos_congr_nodes {d d' : GD} (h : nodes d = nodes d') (k : PyVal) :
    pos d k = pos d' k := by
  induction d generalizing d' with
  | nil =>
    cases d' with
    | nil => rfl
    | cons e rest => simp at h
  | cons e rest ih =>
    cases d' with
    | nil => simp at h
    | cons e' rest' =>
      simp only [nodes_cons, List.cons.injEq] at h
      simp [h.1, ih h.2]

theorem pyDelItem_eq_eraseIdx {d : GD} {k : PyVal} (h : hasNode d k) :
    pyDelItem d k = d.eraseIdx (pos d k) := by
  induction d with
  | nil => cases h
  | cons e rest ih =>
    by_cases he : e.1 = k
    · simp [pyDelItem, he]
    · have hk : k ∈ nodes rest := by
        rcases List.mem_cons.mp h with h' | h'
        · exact absurd h'.symm he
        · exact h'
      simp [pyDelItem, he, ih hk, List.eraseIdx]

/-! ### `allTargets` -/

@[simp] theorem allTargets_nil : allTargets [] = ∅ := rfl

@[simp] theorem allTargets_cons (e : PyVal × Finset ℕ) (d : GD) :
    allTargets (e :: d) = e.2 ∪ allTargets d := rfl

theorem mem_allTargets {d : GD} {t : ℕ} :
    t ∈ allTargets d ↔ ∃ e ∈ d, t ∈ e.2 := by
  induction d with
  | nil => simp
  | cons e rest ih => simp [ih]

/-! ### `keepEntries` and `hitsBelow`: the deletion loop of `reindex` -/

@[simp] theorem keepEntries_nil (L : List ℕ) (i : ℕ) : keepEntries L i [] = [] := rfl

theorem keepEntries_cons (L : List ℕ) (i : ℕ) (e : PyVal × Finset ℕ) (d : GD) :
    keepEntries L i (e :: d) =
      if i ∈ L then keepEntries L (i + 1) d else e :: keepEntries L (i + 1) d := rfl

@[simp] theorem hitsBelow_zero (L : List ℕ) (i : ℕ) : hitsBelow L i 0 = 0 := rfl

theorem hitsBelow_succ (L : List ℕ) (i j : ℕ) :
    hitsBelow L i (j + 1) = (if i ∈ L then 1 else 0) + hitsBelow L (i + 1) j := rfl

theorem hitsBelow_le (L : List ℕ) (i j : ℕ) : hitsBelow L i j ≤ j := by
  induction j generalizing i with
  | zero => simp
  | succ j ih =>
    rw [hitsBelow_succ]
    have := ih (i + 1)
    by_cases h : i ∈ L <;> simp [h] <;> omega

theorem hitsBelow_succ_right (L : List ℕ) (i j : ℕ) :
    hitsBelow L i (j + 1) = hitsBelow L i j + (if i + j ∈ L then 1 else 0) := by
  induction j generalizing i with
  | zero => simp [hitsBelow_succ]
  | succ j ih =>
    rw [hitsBelow_succ, ih (i + 1), hitsBelow_succ]
    have : i + 1 + j = i + (j + 1) := by omega
    rw [this]
    omega

theorem hitsBelow_add (L : List ℕ) (i p q : ℕ) :
    hitsBelow L i (p + q) = hitsBelow L i p + hitsBelow L (i + p) q := by
  induction p generalizing i with
  | zero => simp
  | succ p ih =>
    have h1 : i + (p + 1) = (i + 1) + p := by omega
    have h2 : p + 1 + q = (p + q) + 1 := by omega
    rw [h2, hitsBelow_succ, ih (i + 1), hitsBelow_succ, h1]
    omega

theorem hitsBelow_eq_zero (L : List ℕ) (i j : ℕ) (h : ∀ x ∈ L, i + j ≤ x) :
    hitsBelow L i j = 0 := by
  induction j generalizing i with
  | zero => simp
  | succ j ih =>
    rw [hitsBelow_succ]
    have hi : i ∉ L := fun hc => by have := h i hc; omega
    rw [if_neg hi, ih (i + 1) (fun x hx => by have := h x hx; omega)]

theorem length_keepEntries (L : List ℕ) (d : GD) (i : ℕ) :
    (keepEntries L i d).length = d.length - hitsBelow L i d.length := by
  induction d generalizing i with
  | nil => simp
  | cons e rest ih =>
    rw [keepEntries_cons]
    have hle := hitsBelow_le L (i + 1) rest.length
    by_cases h : i ∈ L
    · simp only [if_pos h, List.length_cons, hitsBelow_succ]
      rw [ih (i + 1)]
      omega
    · simp only [if_neg h, List.length_cons, hitsBelow_succ]
      rw [ih (i + 1)]
      omega

theorem get?_keepEntries {L : List ℕ} {d : GD} {i j : ℕ} (hj : j < d.length)
    (hmem : i + j ∉ L) :
    (keepEntries L i d).get? (j - hitsBelow L i j) = d.get? j := by
  induction d generalizing i j with
  | nil => simp at hj
  | cons e rest ih =>
    cases j with
    | zero =>
      have hi : i ∉ L := by simpa using hmem
      rw [keepEntries_cons, if_neg hi]
      simp
    | succ j =>
      have hj' : j < rest.length := Nat.lt_of_succ_lt_succ hj
      have hmem' : (i + 1) + j ∉ L := by
        have : i + 1 + j = i + (j + 1) := by omega
        rw [this]; exact hmem
      have hle := hitsBelow_le L (i + 1) j
      rw [keepEntries_cons]
      by_cases h : i ∈ L
      · rw [if_pos h, hitsBelow_succ, if_pos h]
        have harith : j + 1 - (1 + hitsBelow L (i + 1) j) = j - hitsBelow L (i + 1) j := by
          omega
        rw [harith]
        exact (ih hj' hmem').trans (by simp)
      · rw [if_neg h, hitsBelow_succ, if_neg h]
        have harith : j + 1 - (0 + hitsBelow L (i + 1) j) = (j - hitsBelow L (i + 1) j) + 1 := by
          omega
        rw [harith]
        simpa using ih hj' hmem'

theorem keepEntries_sublist (L : List ℕ) (d : GD) (i : ℕ) :
    (keepEntries L i d).Sublist d := by
  induction d generalizing i with
  | nil => simp
  | cons e rest ih =>
    rw [keepEntries_cons]
    by_cases h : i ∈ L
    · rw [if_pos h]; exact (ih (i + 1)).cons e
    · rw [if_neg h]; exact (ih (i + 1)).cons₂ e

theorem keepEntries_nil_left (d : GD) (i : ℕ) : keepEntries [] i d = d := by
  induction d generalizing i with
  | nil => rfl
  | cons e rest ih => rw [keepEntries_cons, if_neg (List.not_mem_nil i), ih]

theorem keepEntries_skip {d : GD} {x : ℕ} (L : List ℕ) (j : ℕ) (hx : x < j) :
    keepEntries (x :: L) j d = keepEntries L j d := by
  induction d generalizing j with
  | nil => simp
  | cons e rest ih =>
    rw [keepEntries_cons, keepEntries_cons, ih (j + 1) (by omega)]
    by_cases h : j ∈ L
    · rw [if_pos h, if_pos (List.mem_cons.mpr (Or.inr h))]
    · rw [if_neg h, if_neg (by
        intro hc
        rcases List.mem_cons.mp hc with h' | h'
        · omega
        · exact h h')]

theorem eraseIdx_keepEntries {d : GD} {i a : ℕ} {L : List ℕ}
    (hL : ∀ x ∈ L, i + a < x) (ha : a < d.length) :
    (keepEntries L i d).eraseIdx a = keepEntries ((i + a) :: L) i d := by
  induction d generalizing i a with
  | nil => simp at ha
  | cons e rest ih =>
    have hi : i ∉ L := fun hc => by have := hL i hc; omega
    cases a with
    | zero =>
      rw [keepEntries_cons, if_neg hi, keepEntries_cons,
        if_pos (List.mem_cons.mpr (Or.inl (by omega)))]
      simp only [List.eraseIdx]
      exact (keepEntries_skip L (i + 1) (by omega)).symm
    | succ a =>
      have hL' : ∀ x ∈ L, (i + 1) + a < x := fun x hx => by have := hL x hx; omega
      have ha' : a < rest.length := Nat.lt_of_succ_lt_succ ha
      have hnot : i ∉ (i + (a + 1)) :: L := by
        intro hc
        rcases List.mem_cons.mp hc with h' | h'
        · omega
        · exact hi h'
      rw [keepEntries_cons, if_neg hi, keepEntries_cons, if_neg hnot]
      simp only [List.eraseIdx]
      rw [ih hL' ha']
      have harith : (i + 1) + a = i + (a + 1) := by omega
      rw [harith]

theorem pyDelItem_nodeAt {d : GD} (hn : (nodes d).Nodup) {i : ℕ} (h : i < d.length) :
    pyDelItem d (nodeAt d i) = d.eraseIdx i := by
  rw [pyDelItem_eq_eraseIdx (nodeAt_mem h), pos_nodeAt hn h]

theorem foldr_pyDelItem {L : List ℕ} {d : GD} (hs : L.Sorted (· < ·))
    (hb : ∀ x ∈ L, x < d.length) (hn : (nodes d).Nodup) :
    L.foldr (fun i acc => pyDelItem acc (nodeAt acc i)) d = keepEntries L 0 d := by
  induction L with
  | nil => rw [List.foldr_nil, keepEntries_nil_left]
  | cons a rest ih =>
    have hs' : rest.Sorted (· < ·) := hs.of_cons
    have hrest : ∀ x ∈ rest, a < x := fun x hx => List.rel_of_sorted_cons hs x hx
    have hb' : ∀ x ∈ rest, x < d.length := fun x hx => hb x (List.mem_cons.mpr (Or.inr hx))
    have hA : List.foldr (fun i acc => pyDelItem acc (nodeAt acc i)) d rest =
        keepEntries rest 0 d := ih hs' hb'
    rw [List.foldr_cons, hA]
    have hnA : (nodes (keepEntries rest 0 d)).Nodup :=
      ((keepEntries_sublist rest d 0).map Prod.fst).nodup hn
    have haD : a < d.length := hb a (List.mem_cons.mpr (Or.inl rfl))
    have hzero : hitsBelow rest 0 (a + 1) = 0 :=
      hitsBelow_eq_zero rest 0 (a + 1) (fun x hx => by have := hrest x hx; omega)
    have hhits : hitsBelow rest 0 d.length ≤ d.length - (a + 1) := by
      have h1 := hitsBelow_add rest 0 (a + 1) (d.length - (a + 1))
      have h2 : (a + 1) + (d.length - (a + 1)) = d.length := by omega
      rw [h2] at h1
      rw [h1, hzero]
      simpa using hitsBelow_le rest (0 + (a + 1)) (d.length - (a + 1))
    have haK : a < (keepEntries rest 0 d).length := by
      rw [length_keepEntries]
      omega
    have hL0 : ∀ x ∈ rest, 0 + a < x := by simpa using hrest
    rw [pyDelItem_nodeAt hnA haK, eraseIdx_keepEntries hL0 haD]
    simp

/-! ### The `num_steps` table of `reindex` -/

theorem getD_replicate {n j : ℕ} (h : j < n) (a c : ℕ) :
    (List.replicate n a).getD j c = a := by
  rw [List.getD_eq_getElem _ _ (by simpa using h)]
  simp

theorem getD_map_lt {l : List ℕ} {f : ℕ → ℕ} {n : ℕ} (h : n < l.length) (c : ℕ) :
    (l.map f).getD n c = f (l.getD n c) := by
  rw [List.getD_eq_getElem _ _ (by simpa using h), List.getD_eq_getElem _ _ h]
  simp

theorem getLastD_cons_cons {α : Type} (a b : α) (l : List α) (c : α) :
    (a :: b :: l).getLastD c = (b :: l).getLastD c := by
  simp [List.getLastD_cons]

@[simp] theorem countLt_nil (j : ℕ) : countLt [] j = 0 := rfl

theorem countLt_cons (a : ℕ) (L : List ℕ) (j : ℕ) :
    countLt (a :: L) j = (if a < j then 1 else 0) + countLt L j := by
  simp only [countLt, List.filter_cons]
  by_cases h : a < j
  · simp [h]
    omega
  · simp [h]

theorem countLt_append (L1 L2 : List ℕ) (j : ℕ) :
    countLt (L1 ++ L2) j = countLt L1 j + countLt L2 j := by
  simp [countLt, List.filter_append]

theorem countLt_eq_zero {L : List ℕ} {j : ℕ} (h : ∀ x ∈ L, j ≤ x) : countLt L j = 0 := by
  induction L with
  | nil => rfl
  | cons a rest ih =>
    rw [countLt_cons, if_neg (by have := h a (List.mem_cons.mpr (Or.inl rfl)); omega),
      ih (fun x hx => h x (List.mem_cons.mpr (Or.inr hx)))]

theorem countLt_eq_length {L : List ℕ} {j : ℕ} (h : ∀ x ∈ L, x < j) :
    countLt L j = L.length := by
  induction L with
  | nil => rfl
  | cons a rest ih =>
    rw [countLt_cons, if_pos (h a (List.mem_cons.mpr (Or.inl rfl))),
      ih (fun x hx => h x (List.mem_cons.mpr (Or.inr hx)))]
    simp [Nat.add_comm]

theorem getLastD_eq_getD {α : Type} {l : List α} (c : α) (h : l ≠ []) :
    l.getLastD c = l.getD (l.length - 1) c := by
  induction l with
  | nil => exact absurd rfl h
  | cons a rest ih =>
    cases rest with
    | nil => rfl
    | cons b rest' =>
      rw [getLastD_cons_cons, ih (List.cons_ne_nil b rest')]
      rfl

theorem sorted_head_le {a : ℕ} {l : List ℕ} (hs : (a :: l).Sorted (· < ·)) :
    ∀ x ∈ a :: l, a ≤ x := by
  intro x hx
  rcases List.mem_cons.mp hx with h' | h'
  · omega
  · exact Nat.le_of_lt (List.rel_of_sorted_cons hs x h')

theorem le_getLastD_of_sorted {L : List ℕ} (hs : L.Sorted (· < ·)) :
    ∀ x ∈ L, x ≤ L.getLastD 0 := by
  induction L with
  | nil => simp
  | cons a rest ih =>
    intro x hx
    cases rest with
    | nil =>
      rcases List.mem_cons.mp hx with h' | h'
      · simp [h']
      · cases h'
    | cons b rest' =>
      rw [getLastD_cons_cons]
      rcases List.mem_cons.mp hx with h' | h'
      · subst h'
        have hxb : x < b := List.rel_of_sorted_cons hs b (List.mem_cons.mpr (Or.inl rfl))
        have := ih hs.of_cons b (List.mem_cons.mpr (Or.inl rfl))
        omega
      · exact ih hs.of_cons x h'

theorem stepBlocks_succ (xs : List ℕ) (s : ℕ) :
    stepBlocks (s + 1) xs = (stepBlocks s xs).map (· + 1) := by
  induction xs generalizing s with
  | nil => rfl
  | cons a tail ih =>
    cases tail with
    | nil => rfl
    | cons b rest =>
      show List.replicate (b - a) (s + 2) ++ stepBlocks (s + 2) (b :: rest) = _
      rw [ih (s + 1)]
      show _ = (List.replicate (b - a) (s + 1) ++ stepBlocks (s + 1) (b :: rest)).map (· + 1)
      rw [List.map_append, List.map_replicate]

theorem stepBlocks_length {l0 : ℕ} {rest : List ℕ}
    (hs : (l0 :: rest).Sorted (· < ·)) (s : ℕ) :
    (stepBlocks s (l0 :: rest)).length = (l0 :: rest).getLastD 0 - l0 := by
  induction rest generalizing l0 s with
  | nil => simp [stepBlocks, List.getLastD]
  | cons l1 rest' ih =>
    have h01 : l0 < l1 := List.rel_of_sorted_cons hs l1 (List.mem_cons.mpr (Or.inl rfl))
    have hlast : l1 ≤ (l1 :: rest').getLastD 0 :=
      le_getLastD_of_sorted hs.of_cons l1 (List.mem_cons.mpr (Or.inl rfl))
    show (List.replicate (l1 - l0) (s + 1) ++ stepBlocks (s + 1) (l1 :: rest')).length = _
    rw [List.length_append, List.length_replicate, ih hs.of_cons (s + 1),
      getLastD_cons_cons]
    omega

theorem mid_getD {l0 : ℕ} {rest : List ℕ} (hs : (l0 :: rest).Sorted (· < ·)) {j : ℕ}
    (hj : j ≤ (l0 :: rest).getLastD 0) :
    (List.replicate (l0 + 1) 0 ++ stepBlocks 0 (l0 :: rest)).getD j 0
      = countLt (l0 :: rest) j := by
  induction rest generalizing l0 j with
  | nil =>
    have hjl : j ≤ l0 := by simpa [List.getLastD] using hj
    rw [List.getD_append _ _ _ _ (by simpa using Nat.lt_succ_of_le hjl),
      getD_replicate (Nat.lt_succ_of_le hjl)]
    rw [countLt_cons, if_neg (by omega)]
    rfl
  | cons l1 rest' ih =>
    have h01 : l0 < l1 := List.rel_of_sorted_cons hs l1 (List.mem_cons.mpr (Or.inl rfl))
    have hl1min : ∀ x ∈ l1 :: rest', l1 ≤ x := sorted_head_le hs.of_cons
    have hlast1 : l1 ≤ (l1 :: rest').getLastD 0 :=
      le_getLastD_of_sorted hs.of_cons l1 (List.mem_cons.mpr (Or.inl rfl))
    have hlasteq : (l0 :: l1 :: rest').getLastD 0 = (l1 :: rest').getLastD 0 :=
      getLastD_cons_cons l0 l1 rest' 0
    have hSB : stepBlocks 0 (l0 :: l1 :: rest')
        = List.replicate (l1 - l0) 1 ++ stepBlocks 1 (l1 :: rest') := rfl
    by_cases hj0 : j ≤ l0
    · rw [List.getD_append _ _ _ _ (by simpa using Nat.lt_succ_of_le hj0),
        getD_replicate (Nat.lt_succ_of_le hj0)]
      rw [countLt_cons, if_neg (by omega),
        countLt_eq_zero (fun x hx => by have := hl1min x hx; omega)]
    · push_neg at hj0
      have hge : (List.replicate (l0 + 1) (0 : ℕ)).length ≤ j := by
        simpa using hj0
      rw [List.getD_append_right _ _ _ _ hge, hSB]
      simp only [List.length_replicate]
      by_cases hj1 : j ≤ l1
      · have hidx : j - (l0 + 1) < (List.replicate (l1 - l0) (1 : ℕ)).length := by
          simp
          omega
        rw [List.getD_append _ _ _ _ hidx, getD_replicate (by simpa using hidx)]
        rw [countLt_cons, if_pos hj0,
          countLt_eq_zero (fun x hx => by have := hl1min x hx; omega)]
      · push_neg at hj1
        have hge2 : (List.replicate (l1 - l0) (1 : ℕ)).length ≤ j - (l0 + 1) := by
          simp
          omega
        rw [List.getD_append_right _ _ _ _ hge2]
        simp only [List.length_replicate]
        have hidx : j - (l0 + 1) - (l1 - l0) = j - (l1 + 1) := by omega
        rw [hidx, stepBlocks_succ]
        have hjlast : j ≤ (l1 :: rest').getLastD 0 := by rw [← hlasteq]; exact hj
        have hrange : j - (l1 + 1) < (stepBlocks 0 (l1 :: rest')).length := by
          rw [stepBlocks_length hs.of_cons 0]
          omega
        rw [getD_map_lt hrange 0]
        have hIH := ih hs.of_cons hjlast
        rw [List.getD_append_right _ _ _ _ (by simpa using hj1)] at hIH
        simp only [List.length_replicate] at hIH
        rw [hIH]
        conv_rhs => rw [countLt_cons]
        rw [if_pos hj0]
        omega

theorem numSteps_getD {L : List ℕ} (hs : L.Sorted (· < ·)) (hne : L ≠ []) {n j : ℕ}
    (hlast : L.getLastD 0 < n) (hj : j < n) :
    (numSteps L n).getD j 0 = countLt L j := by
  cases L with
  | nil => exact absurd rfl hne
  | cons l0 rest =>
    set last := (l0 :: rest).getLastD 0 with hlastdef
    have hl0last : l0 ≤ last :=
      le_getLastD_of_sorted hs l0 (List.mem_cons.mpr (Or.inl rfl))
    set mid := List.replicate (l0 + 1) 0 ++ stepBlocks 0 (l0 :: rest) with hmiddef
    have hmidlen : mid.length = last + 1 := by
      rw [hmiddef, List.length_append, List.length_replicate, stepBlocks_length hs 0]
      omega
    have hnum : numSteps (l0 :: rest) n
        = mid ++ List.replicate (n - last - 1) (mid.getLastD 0 + 1) := rfl
    rw [hnum]
    by_cases hjlast : j ≤ last
    · rw [List.getD_append _ _ _ _ (by omega)]
      exact mid_getD hs hjlast
    · push_neg at hjlast
      rw [List.getD_append_right _ _ _ _ (by omega), hmidlen]
      have hinrange : j - (last + 1) < n - last - 1 := by omega
      rw [getD_replicate hinrange]
      have hmidne : mid ≠ [] := by
        intro hc
        rw [hc] at hmidlen
        simp at hmidlen
      have hmidlast : mid.getLastD 0 = mid.getD last 0 := by
        rw [getLastD_eq_getD 0 hmidne, hmidlen]
        simp
      have hcount : mid.getD last 0 = countLt (l0 :: rest) last :=
        mid_getD hs (le_refl last)
      have hself : countLt (l0 :: rest) j = (l0 :: rest).length :=
        countLt_eq_length (fun x hx => by
          have := le_getLastD_of_sorted hs x hx
          omega)
      have hsplitlast : (l0 :: rest).dropLast ++ [(l0 :: rest).getLast (by simp)]
          = l0 :: rest := List.dropLast_append_getLast _
      have hgetlast : (l0 :: rest).getLast (by simp) = last := by
        rw [List.getLast_eq_getLastD, hlastdef, List.getLastD_cons]
      have hdroplt : ∀ x ∈ (l0 :: rest).dropLast, x < last := by
        intro x hx
        have hpw : ((l0 :: rest).dropLast ++ [(l0 :: rest).getLast (by simp)]).Pairwise
            (· < ·) := by
          rw [hsplitlast]
          exact hs
        have := (List.pairwise_append.mp hpw).2.2 x hx last
          (by rw [hgetlast]; exact List.mem_cons.mpr (Or.inl rfl))
        exact this
      have hcountlast : countLt (l0 :: rest) last = (l0 :: rest).length - 1 := by
        conv_lhs => rw [← hsplitlast]
        rw [countLt_append, hgetlast, countLt_eq_length hdroplt]
        have : countLt [last] last = 0 := countLt_eq_zero (by simp)
        rw [this]
        simp
      rw [hmidlast, hcount, hcountlast, hself]
      simp

/-! ### Indexed access helpers -/

theorem get?_eq_some_iff {d : GD} {i : ℕ} {e : PyVal × Finset ℕ} :
    d.get? i = some e ↔ i < d.length ∧ entryAt d i = e := by
  induction d generalizing i with
  | nil => simp
  | cons f rest ih =>
    cases i with
    | zero => simp [entryAt]
    | succ j =>
      rw [List.get?_cons_succ, ih]
      simp

theorem nodeAt_of_get? {d : GD} {i : ℕ} {e : PyVal × Finset ℕ}
    (h : d.get? i = some e) : nodeAt d i = e.1 := by
  rcases get?_eq_some_iff.mp h with ⟨hlt, hentry⟩
  rw [← hentry]
  exact (entryAt_fst hlt).symm

theorem mem_of_get? {d : GD} {i : ℕ} {e : PyVal × Finset ℕ}
    (h : d.get? i = some e) : e ∈ d := by
  rcases get?_eq_some_iff.mp h with ⟨hlt, hentry⟩
  rw [← hentry]
  exact entryAt_mem hlt

theorem entryAt_pos_of_mem {d : GD} (hn : (nodes d).Nodup) {e : PyVal × Finset ℕ}
    (he : e ∈ d) : entryAt d (pos d e.1) = e := by
  induction d with
  | nil => cases he
  | cons f rest ih =>
    rcases List.nodup_cons.mp hn with ⟨hne, hn'⟩
    rcases List.mem_cons.mp he with h' | h'
    · simp [h']
    · have hmem : e.1 ∈ nodes rest := List.mem_map.mpr ⟨e, h', rfl⟩
      have hf : f.1 ≠ e.1 := fun hc => hne (hc ▸ hmem)
      simp [hf, ih hn' h']

theorem mem_of_hasNode {d : GD} (hn : (nodes d).Nodup) {k : PyVal} (h : hasNode d k) :
    (k, edgesOf d k) ∈ d := by
  rcases List.mem_map.mp h with ⟨e, he, hfst⟩
  have := edgesOf_eq_of_mem hn he
  rw [← hfst, this]
  exact he

theorem keepEntries_mem {L : List ℕ} {d : GD} {i : ℕ} {e : PyVal × Finset ℕ}
    (h : e ∈ keepEntries L i d) : ∃ j, (i + j) ∉ L ∧ d.get? j = some e := by
  induction d generalizing i with
  | nil => simp at h
  | cons f rest ih =>
    rw [keepEntries_cons] at h
    by_cases hi : i ∈ L
    · rw [if_pos hi] at h
      rcases ih h with ⟨j, hj1, hj2⟩
      exact ⟨j + 1, by rw [show i + (j + 1) = (i + 1) + j by omega]; exact hj1, by simpa using hj2⟩
    · rw [if_neg hi] at h
      rcases List.mem_cons.mp h with h' | h'
      · exact ⟨0, by simpa using hi, by simp [h']⟩
      · rcases ih h' with ⟨j, hj1, hj2⟩
        exact ⟨j + 1, by rw [show i + (j + 1) = (i + 1) + j by omega]; exact hj1,
          by simpa using hj2⟩

/-! ### Counting lemmas -/

theorem countLt_le_length (L : List ℕ) (j : ℕ) : countLt L j ≤ L.length :=
  List.length_filter_le _ _

theorem countLt_succ {L : List ℕ} (hnd : L.Nodup) (j : ℕ) :
    countLt L (j + 1) = countLt L j + (if j ∈ L then 1 else 0) := by
  induction L with
  | nil => simp
  | cons a rest ih =>
    rcases List.nodup_cons.mp hnd with ⟨hna, hnd'⟩
    rw [countLt_cons, countLt_cons, ih hnd']
    by_cases haj : a = j
    · subst haj
      rw [if_pos (Nat.lt_succ_self a), if_neg (Nat.lt_irrefl a),
        if_neg hna, if_pos (List.mem_cons.mpr (Or.inl rfl))]
      omega
    · have hmem : (j ∈ a :: rest) ↔ (j ∈ rest) := by
        constructor
        · intro hc
          rcases List.mem_cons.mp hc with h' | h'
          · exact absurd h'.symm haj
          · exact h'
        · exact fun hc => List.mem_cons.mpr (Or.inr hc)
      have hlt : (a < j + 1) ↔ (a < j) := by omega
      by_cases ha : a < j
      · rw [if_pos (hlt.mpr ha), if_pos ha]
        by_cases hj : j ∈ rest
        · rw [if_pos hj, if_pos (hmem.mpr hj)]
          omega
        · rw [if_neg hj, if_neg (fun hc => hj (hmem.mp hc))]
          omega
      · rw [if_neg (fun hc => ha (hlt.mp hc)), if_neg ha]
        by_cases hj : j ∈ rest
        · rw [if_pos hj, if_pos (hmem.mpr hj)]
          omega
        · rw [if_neg hj, if_neg (fun hc => hj (hmem.mp hc))]
          omega

theorem hitsBelow_eq_countLt {L : List ℕ} (hnd : L.Nodup) (j : ℕ) :
    hitsBelow L 0 j = countLt L j := by
  induction j with
  | zero => simp [countLt_eq_zero (fun x _ => Nat.zero_le x)]
  | succ j ih =>
    rw [hitsBelow_succ_right, ih, countLt_succ hnd]
    simp

/-! ### The lone positions -/

theorem loneF_subset_range (d : GD) : loneF d ⊆ Finset.range d.length := by
  intro i hi
  have : i ∈ noSource d := (Finset.mem_inter.mp hi).2
  exact (Finset.mem_sdiff.mp this).1

theorem mem_loneList {d : GD} {i : ℕ} : i ∈ loneList d ↔ i ∈ loneF d := by
  constructor
  · intro h
    exact of_decide_eq_true (List.mem_filter.mp h).2
  · intro h
    refine List.mem_filter.mpr ⟨?_, by simpa using h⟩
    have := loneF_subset_range d h
    simpa using Finset.mem_range.mp this

theorem loneList_sorted (d : GD) : (loneList d).Sorted (· < ·) :=
  (List.sorted_lt_range d.length).filter _

theorem loneList_nodup (d : GD) : (loneList d).Nodup :=
  (List.nodup_range d.length).filter _

theorem loneList_lt_length {d : GD} : ∀ x ∈ loneList d, x < d.length := by
  intro x hx
  have := (List.mem_filter.mp hx).1
  simpa using this

theorem getLastD_mem {α : Type} {l : List α} (c : α) (h : l ≠ []) : l.getLastD c ∈ l := by
  cases l with
  | nil => exact absurd rfl h
  | cons a rest =>
    rw [List.getLastD_cons]
    exact List.getLastD_mem_cons rest a

theorem mem_noDest {d : GD} (hn : (nodes d).Nodup) {i : ℕ} :
    i ∈ noDest d ↔ i < d.length ∧ (entryAt d i).2 = ∅ := by
  constructor
  · intro h
    rcases List.mem_map.mp (List.mem_toFinset.mp h) with ⟨e, hef, hpos⟩
    rcases List.mem_filter.mp hef with ⟨hed, hcard⟩
    have hcard' : e.2 = ∅ := Finset.card_eq_zero.mp (by simpa using hcard)
    have hlt : pos d e.1 < d.length :=
      pos_lt_length (List.mem_map.mpr ⟨e, hed, rfl⟩)
    rw [← hpos]
    exact ⟨hlt, by rw [entryAt_pos_of_mem hn hed]; exact hcard'⟩
  · intro ⟨hlt, hempty⟩
    apply List.mem_toFinset.mpr
    apply List.mem_map.mpr
    refine ⟨entryAt d i, List.mem_filter.mpr ⟨entryAt_mem hlt, by simp [hempty]⟩, ?_⟩
    rw [entryAt_fst hlt, pos_nodeAt hn hlt]

theorem mem_noSource {d : GD} {i : ℕ} :
    i ∈ noSource d ↔ i < d.length ∧ i ∉ allTargets d := by
  rw [noSource, Finset.mem_sdiff, Finset.mem_range]

theorem mem_loneF {d : GD} (hn : (nodes d).Nodup) {i : ℕ} :
    i ∈ loneF d ↔ i < d.length ∧ (entryAt d i).2 = ∅ ∧ i ∉ allTargets d := by
  rw [loneF, Finset.mem_inter, mem_noDest hn, mem_noSource]
  constructor
  · rintro ⟨⟨h1, h2⟩, ⟨_, h3⟩⟩
    exact ⟨h1, h2, h3⟩
  · rintro ⟨h1, h2, h3⟩
    exact ⟨⟨h1, h2⟩, ⟨h1, h3⟩⟩

theorem isLone_iff {d : GD} (hn : (nodes d).Nodup) {k : PyVal} (hk : hasNode d k) :
    isLone d k ↔ pos d k ∈ loneF d := by
  have hlt : pos d k < d.length := pos_lt_length hk
  rw [mem_loneF hn, isLone]
  have hedges : (entryAt d (pos d k)).2 = edgesOf d k := by
    rw [← edgesOf_entryAt hn hlt, nodeAt_pos hk]
  rw [hedges]
  constructor
  · rintro ⟨h1, h2⟩
    exact ⟨hlt, h1, h2⟩
  · rintro ⟨_, h1, h2⟩
    exact ⟨h1, h2⟩

/-! ### `shiftEntries` -/

@[simp] theorem shiftEntries_nil (steps L : List ℕ) (i : ℕ) :
    shiftEntries steps L i [] = [] := rfl

theorem shiftEntries_cons (steps L : List ℕ) (i : ℕ) (e : PyVal × Finset ℕ) (d : GD) :
    shiftEntries steps L i (e :: d)
      = (if i ∈ L then e else (e.1, e.2.image (fun item => item - steps.getD item 0)))
          :: shiftEntries steps L (i + 1) d := rfl

theorem length_shiftEntries (steps L : List ℕ) (d : GD) (i : ℕ) :
    (shiftEntries steps L i d).length = d.length := by
  induction d generalizing i with
  | nil => rfl
  | cons e rest ih => rw [shiftEntries_cons]; simp [ih]

theorem nodes_shiftEntries (steps L : List ℕ) (d : GD) (i : ℕ) :
    nodes (shiftEntries steps L i d) = nodes d := by
  induction d generalizing i with
  | nil => rfl
  | cons e rest ih =>
    rw [shiftEntries_cons, nodes_cons, nodes_cons, ih]
    by_cases h : i ∈ L <;> simp [h]

theorem entryAt_shiftEntries (steps L : List ℕ) {d : GD} {j : ℕ} (hj : j < d.length)
    (i : ℕ) :
    entryAt (shiftEntries steps L i d) j
      = if (i + j) ∈ L then entryAt d j
        else ((entryAt d j).1, (entryAt d j).2.image (fun item => item - steps.getD item 0)) := by
  induction d generalizing i j with
  | nil => simp at hj
  | cons e rest ih =>
    rw [shiftEntries_cons]
    cases j with
    | zero => simp
    | succ j' =>
      rw [entryAt_cons_succ, entryAt_cons_succ, ih (Nat.lt_of_succ_lt_succ hj) (i + 1)]
      have : (i + 1) + j' = i + (j' + 1) := by omega
      rw [this]

/-! ### Structure of `reindex` -/

theorem reindex_of_lone_nil {d : GD} (h : loneList d = []) : reindex d = d := by
  simp [reindex, h]

theorem reindex_eq_keep {d : GD} (hwf : wfd d) (hne : loneList d ≠ []) :
    reindex d = keepEntries (loneList d) 0
      (shiftEntries (numSteps (loneList d) d.length) (loneList d) 0 d) := by
  rw [reindex]
  simp only [if_neg hne]
  rw [List.foldl_reverse]
  apply foldr_pyDelItem (loneList_sorted d)
  · intro x hx
    rw [length_shiftEntries]
    exact loneList_lt_length x hx
  · rw [nodes_shiftEntries]
    exact hwf.1

theorem nodes_reindex_sublist {d : GD} (hwf : wfd d) :
    (nodes (reindex d)).Sublist (nodes d) := by
  by_cases hne : loneList d = []
  · rw [reindex_of_lone_nil hne]
  · rw [reindex_eq_keep hwf hne]
    have h1 := (keepEntries_sublist (loneList d)
      (shiftEntries (numSteps (loneList d) d.length) (loneList d) 0 d) 0).map Prod.fst
    have h2 := nodes_shiftEntries (numSteps (loneList d) d.length) (loneList d) d 0
    rw [← h2]
    exact h1

theorem nodes_reindex_nodup {d : GD} (hwf : wfd d) : (nodes (reindex d)).Nodup :=
  (nodes_reindex_sublist hwf).nodup hwf.1

theorem length_reindex {d : GD} (hwf : wfd d) :
    (reindex d).length = d.length - (loneList d).length := by
  by_cases hne : loneList d = []
  · rw [reindex_of_lone_nil hne, hne]
    simp
  · rw [reindex_eq_keep hwf hne, length_keepEntries, length_shiftEntries,
      hitsBelow_eq_countLt (loneList_nodup d),
      countLt_eq_length loneList_lt_length]

theorem nodeAt_shiftEntries (steps L : List ℕ) (d : GD) (i j : ℕ) :
    nodeAt (shiftEntries steps L i d) j = nodeAt d j := by
  rw [nodeAt, nodes_shiftEntries]
  rfl

theorem steps_getD_eq {d : GD} (hne : loneList d ≠ []) {t : ℕ} (ht : t < d.length) :
    (numSteps (loneList d) d.length).getD t 0 = countLoneLt d t := by
  apply numSteps_getD (loneList_sorted d) hne ?_ ht
  exact loneList_lt_length _ (getLastD_mem 0 hne)

theorem reindex_get?_survivor {d : GD} (hwf : wfd d) {j : ℕ} (hj : j < d.length)
    (hjL : j ∉ loneF d) :
    (reindex d).get? (j - countLoneLt d j)
      = some ((entryAt d j).1, (entryAt d j).2.image (fun t => t - countLoneLt d t)) := by
  by_cases hne : loneList d = []
  · have hc0 : ∀ t, countLoneLt d t = 0 := by
      intro t
      rw [countLoneLt, hne]
      rfl
    rw [reindex_of_lone_nil hne]
    simp only [hc0, Nat.sub_zero, Finset.image_id']
    exact get?_eq_some_iff.mpr ⟨hj, rfl⟩
  · have hjL' : 0 + j ∉ loneList d := by
      simpa [mem_loneList] using hjL
    have hj1 : j < (shiftEntries (numSteps (loneList d) d.length) (loneList d) 0 d).length := by
      rw [length_shiftEntries]
      exact hj
    have hkey := get?_keepEntries hj1 hjL'
    rw [hitsBelow_eq_countLt (loneList_nodup d)] at hkey
    have hentry : entryAt (shiftEntries (numSteps (loneList d) d.length) (loneList d) 0 d) j
        = ((entryAt d j).1, (entryAt d j).2.image (fun t => t - countLt (loneList d) t)) := by
      rw [entryAt_shiftEntries _ _ hj 0, if_neg hjL']
      have hfun : ∀ t ∈ (entryAt d j).2,
          t - (numSteps (loneList d) d.length).getD t 0 = t - countLt (loneList d) t := by
        intro t ht
        have htlt : t < d.length := hwf.2 _ (entryAt_mem hj) t ht
        have hstep := steps_getD_eq hne htlt
        simp only [countLoneLt] at hstep
        rw [hstep]
      rw [Finset.image_congr hfun]
    have hsome : (shiftEntries (numSteps (loneList d) d.length) (loneList d) 0 d).get? j
        = some ((entryAt d j).1, (entryAt d j).2.image (fun t => t - countLt (loneList d) t)) :=
      get?_eq_some_iff.mpr ⟨hj1, hentry⟩
    rw [reindex_eq_keep hwf hne]
    exact hkey.trans hsome

theorem reindex_survivor {d : GD} (hwf : wfd d) {k : PyVal} (hk : hasNode d k)
    (hsurv : pos d k ∉ loneF d) :
    hasNode (reindex d) k
    ∧ pos (reindex d) k = pos d k - countLoneLt d (pos d k)
    ∧ edgesOf (reindex d) k = (edgesOf d k).image (fun t => t - countLoneLt d t) := by
  have hj : pos d k < d.length := pos_lt_length hk
  have hget := reindex_get?_survivor hwf hj hsurv
  have hfst : (entryAt d (pos d k)).1 = k := by
    rw [entryAt_fst hj]
    exact nodeAt_pos hk
  have hsnd : (entryAt d (pos d k)).2 = edgesOf d k := by
    rw [← edgesOf_entryAt hwf.1 hj, nodeAt_pos hk]
  rw [hfst, hsnd] at hget
  have hmem : (k, (edgesOf d k).image (fun t => t - countLoneLt d t)) ∈ reindex d :=
    mem_of_get? hget
  have hk' : hasNode (reindex d) k := List.mem_map.mpr ⟨_, hmem, rfl⟩
  refine ⟨hk', ?_, ?_⟩
  · have hlt : pos d k - countLoneLt d (pos d k) < (reindex d).length :=
      (get?_eq_some_iff.mp hget).1
    have hnodeAt : nodeAt (reindex d) (pos d k - countLoneLt d (pos d k)) = k :=
      nodeAt_of_get? hget
    have hres := pos_nodeAt (nodes_reindex_nodup hwf) hlt
    rw [hnodeAt] at hres
    exact hres
  · exact edgesOf_eq_of_mem (nodes_reindex_nodup hwf) hmem

theorem reindex_purged {d : GD} (hwf : wfd d) {k : PyVal} (hk : hasNode d k)
    (hlone : pos d k ∈ loneF d) : ¬ hasNode (reindex d) k := by
  intro hcontra
  have hne : loneList d ≠ [] := by
    intro hc
    have hmem : pos d k ∈ loneList d := mem_loneList.mpr hlone
    rw [hc] at hmem
    cases hmem
  rw [reindex_eq_keep hwf hne] at hcontra
  rcases List.mem_map.mp hcontra with ⟨e, he, hefst⟩
  rcases keepEntries_mem he with ⟨j, hjL, hget⟩
  simp only [Nat.zero_add] at hjL
  have hjlt : j < d.length := by
    have := (get?_eq_some_iff.mp hget).1
    rwa [length_shiftEntries] at this
  have hnodeAtj : nodeAt d j = k := by
    have h1 := nodeAt_of_get? hget
    rw [nodeAt_shiftEntries] at h1
    rw [h1, hefst]
  have hposk : pos d k = j := by
    rw [← hnodeAtj]
    exact pos_nodeAt hwf.1 hjlt
  rw [hposk] at hlone
  exact hjL (mem_loneList.mpr hlone)

theorem reindex_resolve {d : GD} (hwf : wfd d) {k : PyVal} (hk : hasNode d k)
    (hsurv : pos d k ∉ loneF d) :
    (edgesOf (reindex d) k).image (nodeAt (reindex d))
      = (edgesOf d k).image (nodeAt d) := by
  obtain ⟨hk', hpos', hedges'⟩ := reindex_survivor hwf hk hsurv
  rw [hedges', Finset.image_image]
  apply Finset.image_congr
  intro t ht
  have hmemd : (k, edgesOf d k) ∈ d := mem_of_hasNode hwf.1 hk
  have htlt : t < d.length := hwf.2 _ hmemd t ht
  have htin : t ∈ allTargets d := mem_allTargets.mpr ⟨_, hmemd, ht⟩
  have htnot : t ∉ loneF d := by
    intro hc
    exact ((mem_loneF hwf.1).mp hc).2.2 htin
  have hxnode : hasNode d (nodeAt d t) := nodeAt_mem htlt
  have hxpos : pos d (nodeAt d t) = t := pos_nodeAt hwf.1 htlt
  obtain ⟨hx', hxpos', -⟩ := reindex_survivor hwf hxnode (by rw [hxpos]; exact htnot)
  have hres := nodeAt_pos hx'
  rw [hxpos', hxpos] at hres
  simpa using hres

theorem reindex_no_lone {d : GD} (hwf : wfd d) :
    ∀ k, hasNode (reindex d) k → ¬ isLone (reindex d) k := by
  intro k hk' hcontra
  have hkd : hasNode d k := (nodes_reindex_sublist hwf).subset hk'
  have hsurv : pos d k ∉ loneF d := fun hc => reindex_purged hwf hkd hc hk'
  obtain ⟨-, hpos', hedges'⟩ := reindex_survivor hwf hkd hsurv
  obtain ⟨hempty, hnoinc⟩ := hcontra
  have hj : pos d k < d.length := pos_lt_length hkd
  by_cases hemp : edgesOf d k = ∅
  · have hin : pos d k ∈ allTargets d := by
      by_contra hnotin
      apply hsurv
      apply (mem_loneF hwf.1).mpr
      refine ⟨hj, ?_, hnotin⟩
      rw [← edgesOf_entryAt hwf.1 hj, nodeAt_pos hkd]
      exact hemp
    rcases mem_allTargets.mp hin with ⟨e, hed, hposmem⟩
    have hkE : hasNode d e.1 := List.mem_map.mpr ⟨e, hed, rfl⟩
    have hEedges : edgesOf d e.1 = e.2 := edgesOf_eq_of_mem hwf.1 hed
    have hEnotlone : pos d e.1 ∉ loneF d := by
      intro hc
      have h2 := ((mem_loneF hwf.1).mp hc).2.1
      rw [entryAt_pos_of_mem hwf.1 hed] at h2
      rw [h2] at hposmem
      exact absurd hposmem (Finset.not_mem_empty _)
    obtain ⟨hE', -, hEedges'⟩ := reindex_survivor hwf hkE hEnotlone
    have hmemR : (e.1, edgesOf (reindex d) e.1) ∈ reindex d :=
      mem_of_hasNode (nodes_reindex_nodup hwf) hE'
    have hinc : pos (reindex d) k ∈ edgesOf (reindex d) e.1 := by
      rw [hEedges', hEedges, hpos']
      exact Finset.mem_image.mpr ⟨pos d k, hposmem, rfl⟩
    exact hnoinc (mem_allTargets.mpr ⟨_, hmemR, hinc⟩)
  · have hnonempty : (edgesOf d k).Nonempty := Finset.nonempty_iff_ne_empty.mpr hemp
    have : (edgesOf (reindex d) k).Nonempty := by
      rw [hedges']
      exact hnonempty.image _
    rw [hempty] at this
    exact absurd this Finset.not_nonempty_empty

theorem wfd_reindex {d : GD} (hwf : wfd d) : wfd (reindex d) := by
  refine ⟨nodes_reindex_nodup hwf, ?_⟩
  intro e he t ht
  by_cases hne : loneList d = []
  · rw [reindex_of_lone_nil hne] at he ⊢
    exact hwf.2 e he t ht
  · rw [reindex_eq_keep hwf hne] at he
    rcases keepEntries_mem he with ⟨j, hjL, hget⟩
    simp only [Nat.zero_add] at hjL
    have hjlt : j < d.length := by
      have := (get?_eq_some_iff.mp hget).1
      rwa [length_shiftEntries] at this
    have hentry := (get?_eq_some_iff.mp hget).2
    rw [entryAt_shiftEntries _ _ hjlt 0] at hentry
    simp only [Nat.zero_add] at hentry
    rw [if_neg hjL] at hentry
    rw [← hentry] at ht
    rcases Finset.mem_image.mp ht with ⟨t0, ht0, hshift⟩
    have ht0lt : t0 < d.length := hwf.2 _ (entryAt_mem hjlt) t0 ht0
    rw [steps_getD_eq hne ht0lt] at hshift
    simp only [countLoneLt] at hshift
    have ht0in : t0 ∈ allTargets d := mem_allTargets.mpr ⟨_, entryAt_mem hjlt, ht0⟩
    have ht0not : t0 ∉ loneList d := by
      intro hc
      exact ((mem_loneF hwf.1).mp (mem_loneList.mp hc)).2.2 ht0in
    have hc1 : countLt (loneList d) (t0 + 1) = countLt (loneList d) t0 := by
      rw [countLt_succ (loneList_nodup d), if_neg ht0not]
      omega
    have hfull : countLt (loneList d) d.length = (loneList d).length :=
      countLt_eq_length loneList_lt_length
    have hsplit : hitsBelow (loneList d) 0 d.length
        = hitsBelow (loneList d) 0 (t0 + 1)
          + hitsBelow (loneList d) (0 + (t0 + 1)) (d.length - (t0 + 1)) := by
      rw [← hitsBelow_add]
      congr 1
      omega
    rw [hitsBelow_eq_countLt (loneList_nodup d), hitsBelow_eq_countLt (loneList_nodup d)]
      at hsplit
    have htail := hitsBelow_le (loneList d) (0 + (t0 + 1)) (d.length - (t0 + 1))
    have hle := countLt_le_length (loneList d) t0
    have hct0 : countLt (loneList d) t0 ≤ t0 := by
      rw [← hitsBelow_eq_countLt (loneList_nodup d)]
      exact hitsBelow_le _ 0 t0
    rw [length_reindex hwf]
    omega

theorem loneList_reindex_nil {d : GD} (hwf : wfd d) : loneList (reindex d) = [] := by
  apply List.eq_nil_iff_forall_not_mem.mpr
  intro x hx
  have hxF := mem_loneList.mp hx
  obtain ⟨hxlt, hxempty, hxnoinc⟩ := (mem_loneF (nodes_reindex_nodup hwf)).mp hxF
  have hk : hasNode (reindex d) (nodeAt (reindex d) x) := nodeAt_mem hxlt
  apply reindex_no_lone hwf (nodeAt (reindex d) x) hk
  constructor
  · rw [edgesOf_entryAt (nodes_reindex_nodup hwf) hxlt]
    exact hxempty
  · rw [pos_nodeAt (nodes_reindex_nodup hwf) hxlt]
    exact hxnoinc

/-! ### Helpers for `gSet`, `delete_link`, `gDel`, `gPopitem` -/

theorem edgesOf_cases (d : GD) (k : PyVal) :
    edgesOf d k = ∅ ∨ ∃ e ∈ d, e.1 = k ∧ edgesOf d k = e.2 := by
  induction d with
  | nil => exact Or.inl rfl
  | cons f rest ih =>
    by_cases hf : f.1 = k
    · right
      exact ⟨f, List.mem_cons.mpr (Or.inl rfl), hf, by simp [hf]⟩
    · rcases ih with h' | ⟨e, he, h1, h2⟩
      · left
        simpa [hf] using h'
      · right
        exact ⟨e, List.mem_cons.mpr (Or.inr he), h1, by simpa [hf] using h2⟩

theorem edgesOf_lt_of_bounded {d : GD} (hb : ∀ e ∈ d, ∀ t ∈ e.2, t < d.length)
    (k : PyVal) : ∀ t ∈ edgesOf d k, t < d.length := by
  intro t ht
  rcases edgesOf_cases d k with h' | ⟨e, he, -, h2⟩
  · rw [h'] at ht
    exact absurd ht (Finset.not_mem_empty t)
  · rw [h2] at ht
    exact hb e he t ht

theorem length_dictSet_ge (d : GD) (k : PyVal) (v : Finset ℕ) :
    d.length ≤ (dictSet d k v).length := by
  by_cases h : hasNode d k
  · rw [length_dictSet_of_mem h]
  · rw [length_dictSet_of_not_mem h]
    omega

theorem hasNode_dictSet_self (d : GD) (k : PyVal) (v : Finset ℕ) :
    hasNode (dictSet d k v) k := by
  by_cases h : hasNode d k
  · rw [hasNode, nodes_dictSet_of_mem h]
    exact h
  · rw [hasNode, dictSet_eq_append_of_not_mem h, nodes_append]
    simp

theorem bounded_dictSet {d : GD} (hb : ∀ e ∈ d, ∀ t ∈ e.2, t < d.length)
    {s : Finset ℕ} (hs : ∀ t ∈ s, t < d.length) (k : PyVal) :
    ∀ e ∈ dictSet d k s, ∀ t ∈ e.2, t < (dictSet d k s).length := by
  intro e he t ht
  have hlen := length_dictSet_ge d k s
  rcases mem_dictSet he with h' | h'
  · exact lt_of_lt_of_le (hb e h' t ht) hlen
  · rw [h'] at ht
    exact lt_of_lt_of_le (hs t ht) hlen

theorem targetsBounded_gSetCore {d : GD} (hb : ∀ e ∈ d, ∀ t ∈ e.2, t < d.length)
    (k v : PyVal) : ∀ e ∈ gSetCore d k v, ∀ t ∈ e.2, t < (gSetCore d k v).length := by
  unfold gSetCore
  split_ifs with h1 h2 h3 h4 h5
  · -- both present
    apply bounded_dictSet hb ?_ k
    intro t ht
    rcases Finset.mem_union.mp ht with h' | h'
    · exact edgesOf_lt_of_bounded hb k t h'
    · rw [Finset.mem_singleton.mp h']
      exact pos_lt_length h1.2
  · -- key present, value absent, value not None
    have hb1 : ∀ e ∈ dictSet d v ∅, ∀ t ∈ e.2, t < (dictSet d v ∅).length :=
      bounded_dictSet hb (by simp) v
    apply bounded_dictSet hb1 ?_ k
    intro t ht
    rcases Finset.mem_union.mp ht with h' | h'
    · exact edgesOf_lt_of_bounded hb1 k t h'
    · rw [Finset.mem_singleton.mp h']
      exact pos_lt_length (hasNode_dictSet_self d v ∅)
  · -- key present, value is None: unchanged
    exact hb
  · -- key absent, value present
    apply bounded_dictSet hb ?_ k
    intro t ht
    rw [Finset.mem_singleton.mp ht]
    exact pos_lt_length h4.2
  · -- neither present, value not None
    have hb1 : ∀ e ∈ dictSet d v ∅, ∀ t ∈ e.2, t < (dictSet d v ∅).length :=
      bounded_dictSet hb (by simp) v
    apply bounded_dictSet hb1 ?_ k
    intro t ht
    rw [Finset.mem_singleton.mp ht]
    exact pos_lt_length (hasNode_dictSet_self d v ∅)
  · -- neither present, value is None: key gets an empty set
    exact bounded_dictSet hb (by simp) k

theorem length_delete_link (d : GD) (k v : PyVal) :
    (delete_link d k v).length = d.length := by
  unfold delete_link
  by_cases h1 : hasNode d k
  · rw [if_pos h1]
    exact length_dictSet_of_mem h1 _
  · rw [if_neg h1]

theorem targetsBounded_delete_link {d : GD} (hb : ∀ e ∈ d, ∀ t ∈ e.2, t < d.length)
    (k v : PyVal) : ∀ e ∈ delete_link d k v, ∀ t ∈ e.2, t < (delete_link d k v).length := by
  unfold delete_link
  by_cases h1 : hasNode d k
  · rw [if_pos h1]
    apply bounded_dictSet hb ?_ k
    intro t ht
    by_cases h2 : hasNode d v
    · rw [if_pos h2] at ht
      exact edgesOf_lt_of_bounded hb k t (Finset.mem_of_mem_erase ht)
    · rw [if_neg h2] at ht
      exact edgesOf_lt_of_bounded hb k t ht
  · rw [if_neg h1]
    exact hb

theorem targetsBounded_disconnect {d : GD} (hb : ∀ e ∈ d, ∀ t ∈ e.2, t < d.length)
    (k1 k2 : PyVal) :
    ∀ e ∈ disconnect d k1 k2, ∀ t ∈ e.2, t < (disconnect d k1 k2).length :=
  targetsBounded_delete_link (targetsBounded_delete_link hb k1 k2) k2 k1

theorem targetsBounded_applyOp {d : GD} (hb : ∀ e ∈ d, ∀ t ∈ e.2, t < d.length)
    (op : GOp) : ∀ e ∈ applyOp d op, ∀ t ∈ e.2, t < (applyOp d op).length := by
  cases op with
  | setOp k v =>
    have happ : applyOp d (GOp.setOp k v)
        = match gSet d k v with | .ok d' => d' | .error _ => d := rfl
    rw [happ]
    unfold gSet
    by_cases h1 : (!k.hashable || !v.hashable) = true
    · rw [if_pos h1]
      exact hb
    · rw [if_neg h1]
      by_cases h2 : k = PyVal.none
      · rw [if_pos h2]
        exact hb
      · rw [if_neg h2]
        exact targetsBounded_gSetCore hb k v
  | delLinkOp k v => exact targetsBounded_delete_link hb k v
  | disconnectOp k v => exact targetsBounded_disconnect hb k v

theorem targetsBounded_applyOps (ops : List GOp) :
    ∀ e ∈ applyOps ops, ∀ t ∈ e.2, t < (applyOps ops).length := by
  rw [applyOps]
  have haux : ∀ (l : List GOp) (d : GD), (∀ e ∈ d, ∀ t ∈ e.2, t < d.length) →
      ∀ e ∈ l.foldl applyOp d, ∀ t ∈ e.2, t < (l.foldl applyOp d).length := by
    intro l
    induction l with
    | nil => intro d hb; exact hb
    | cons op rest ih =>
      intro d hb
      exact ih (applyOp d op) (targetsBounded_applyOp hb op)
  exact haux ops [] (by simp)

theorem nodes_map_snd (d : GD) (f : Finset ℕ → Finset ℕ) :
    nodes (d.map (fun e => (e.1, f e.2))) = nodes d := by
  induction d with
  | nil => rfl
  | cons e rest ih =>
    simp only [List.map_cons, nodes_cons, ih]

theorem edgesOf_map_snd {d : GD} {k : PyVal} (f : Finset ℕ → Finset ℕ)
    (hk : hasNode d k) : edgesOf (d.map (fun e => (e.1, f e.2))) k = f (edgesOf d k) := by
  induction d with
  | nil => cases hk
  | cons e rest ih =>
    by_cases he : e.1 = k
    · simp [he]
    · have hk' : hasNode rest k := by
        rcases List.mem_cons.mp hk with h' | h'
        · exact absurd h'.symm he
        · exact h'
      simp [he, ih hk']

theorem allTargets_map_erase {d : GD} {i t : ℕ}
    (ht : t ∈ allTargets (d.map (fun e => (e.1, e.2.erase i)))) :
    t ≠ i ∧ t ∈ allTargets d := by
  rcases mem_allTargets.mp ht with ⟨e', he', hte⟩
  rcases List.mem_map.mp he' with ⟨e, he, heq⟩
  rw [← heq] at hte
  exact ⟨(Finset.mem_erase.mp hte).1,
    mem_allTargets.mpr ⟨e, he, (Finset.mem_erase.mp hte).2⟩⟩

theorem gDel_eq (d : GD) (key : PyVal) :
    gDel d key = (dictSet d key ∅).map (fun e => (e.1, e.2.erase (pos d key))) := rfl

theorem nodes_gDel {d : GD} {key : PyVal} (hk : hasNode d key) :
    nodes (gDel d key) = nodes d := by
  have h1 := nodes_map_snd (dictSet d key ∅) (fun s => s.erase (pos d key))
  rw [nodes_dictSet_of_mem hk] at h1
  exact h1

theorem length_gDel {d : GD} {key : PyVal} (hk : hasNode d key) :
    (gDel d key).length = d.length := by
  rw [gDel_eq, List.length_map, length_dictSet_of_mem hk]

theorem edgesOf_gDel_self {d : GD} {key : PyVal} (hk : hasNode d key) :
    edgesOf (gDel d key) key = ∅ := by
  have h1 := @edgesOf_map_snd (dictSet d key ∅) key (fun s => s.erase (pos d key))
    (hasNode_dictSet_self d key ∅)
  rw [edgesOf_dictSet_self] at h1
  simp only [Finset.erase_empty] at h1
  exact h1

theorem wfd_gDel {d : GD} (hwf : wfd d) {key : PyVal} (hk : hasNode d key) :
    wfd (gDel d key) := by
  constructor
  · rw [nodes_gDel hk]
    exact hwf.1
  · intro e he t ht
    rw [length_gDel hk]
    rw [gDel_eq] at he
    rcases List.mem_map.mp he with ⟨e0, he0, heq⟩
    rw [← heq] at ht
    have ht0 : t ∈ e0.2 := Finset.mem_of_mem_erase ht
    rcases mem_dictSet he0 with h' | h'
    · exact hwf.2 e0 h' t ht0
    · rw [h'] at ht0
      exact absurd ht0 (Finset.not_mem_empty t)

theorem pos_gDel {d : GD} {key : PyVal} (hk : hasNode d key) (x : PyVal) :
    pos (gDel d key) x = pos d x :=
  pos_congr_nodes (nodes_gDel hk) x

theorem not_incoming_gDel {d : GD} (hwf : wfd d) {key : PyVal} (hk : hasNode d key) :
    pos (gDel d key) key ∉ allTargets (gDel d key) := by
  rw [pos_gDel hk]
  intro hc
  rw [gDel_eq] at hc
  exact (allTargets_map_erase hc).1 rfl

theorem lone_gDel {d : GD} (hwf : wfd d) {key : PyVal} (hk : hasNode d key) :
    pos (gDel d key) key ∈ loneF (gDel d key) := by
  have hn1 : (nodes (gDel d key)).Nodup := by
    rw [nodes_gDel hk]
    exact hwf.1
  have hk1 : hasNode (gDel d key) key := by
    rw [hasNode, nodes_gDel hk]
    exact hk
  apply (mem_loneF hn1).mpr
  have hlt : pos (gDel d key) key < (gDel d key).length := pos_lt_length hk1
  refine ⟨hlt, ?_, not_incoming_gDel hwf hk⟩
  rw [← edgesOf_entryAt hn1 hlt, nodeAt_pos hk1]
  exact edgesOf_gDel_self hk

theorem entryAt_map_snd {d : GD} (f : Finset ℕ → Finset ℕ) {j : ℕ} (hj : j < d.length) :
    entryAt (d.map (fun e => (e.1, f e.2))) j = ((entryAt d j).1, f (entryAt d j).2) := by
  induction d generalizing j with
  | nil => simp at hj
  | cons e rest ih =>
    cases j with
    | zero => simp
    | succ j' =>
      simp only [List.map_cons, entryAt_cons_succ]
      exact ih (Nat.lt_of_succ_lt_succ hj)

theorem eraseIdx_last {α : Type} {l : List α} (h : l ≠ []) :
    l.eraseIdx (l.length - 1) = l.dropLast := by
  induction l with
  | nil => exact absurd rfl h
  | cons a rest ih =>
    cases rest with
    | nil => rfl
    | cons b rest' =>
      have hne : (b :: rest') ≠ [] := List.cons_ne_nil b rest'
      show (a :: b :: rest').eraseIdx ((b :: rest').length) = _
      rw [show ((b :: rest').length) = ((b :: rest').length - 1) + 1 by simp]
      rw [List.eraseIdx_cons_succ, ih hne]
      rfl

theorem getLast?_eq_getD {α : Type} {l : List α} (c : α) (h : l ≠ []) :
    l.getLast? = some (l.getD (l.length - 1) c) := by
  rw [← getLastD_eq_getD c h, List.getLastD_eq_getLast?,
    List.getLast?_eq_getLast_of_ne_nil h]
  rfl

theorem pos_append_of_mem {d1 : GD} {k : PyVal} (h : hasNode d1 k) (d2 : GD) :
    pos (d1 ++ d2) k = pos d1 k := by
  induction d1 with
  | nil => cases h
  | cons e rest ih =>
    by_cases he : e.1 = k
    · simp [he]
    · have hk' : hasNode rest k := by
        rcases List.mem_cons.mp h with h' | h'
        · exact absurd h'.symm he
        · exact h'
      simp [he, ih hk']

theorem dropLast_append_entryAt {d : GD} (h : d ≠ []) :
    d.dropLast ++ [entryAt d (d.length - 1)] = d := by
  have h1 := List.dropLast_append_getLast h
  have h2 : d.getLast h = entryAt d (d.length - 1) := by
    have := getLast?_eq_getD (PyVal.none, (∅ : Finset ℕ)) h
    rw [List.getLast?_eq_getLast_of_ne_nil h] at this
    exact Option.some.inj this
  rw [← h2]
  exact h1

theorem nodes_dropLast (d : GD) : nodes (d.dropLast) = (nodes d).dropLast := by
  rw [nodes, nodes, List.map_dropLast]

theorem entryAt_dropLast {d : GD} {j : ℕ} (hne : d ≠ []) (hj : j < d.length - 1) :
    entryAt (d.dropLast) j = entryAt d j := by
  conv_rhs => rw [← dropLast_append_entryAt hne]
  show (d.dropLast).getD j (PyVal.none, ∅)
      = (d.dropLast ++ [entryAt d (d.length - 1)]).getD j (PyVal.none, ∅)
  rw [List.getD_append]
  rw [List.length_dropLast]
  exact hj

theorem gPopitem_eq {d : GD} {key : PyVal} (hlast : (nodes d).getLast? = some key)
    {r : PyRet} (hok : gGet d key = Except.ok r) :
    gPopitem d = Except.ok ((key, r),
      (pyDelItem d key).map (fun e => (e.1, e.2.erase (d.length - 1)))) := by
  unfold gPopitem
  rw [hlast]
  show (match gGet d key with
    | Except.error e => Except.error e
    | Except.ok val =>
        Except.ok ((key, val),
          (pyDelItem d key).map
            (fun e : PyVal × Finset ℕ => (e.1, e.2.erase (d.length - 1))))) = _
  rw [hok]

/-! ## Claim theorems -/

/-- C1: the spec states the bijective invariant — for every live `a`, if
`get(a) == b` then `get(b) == a`, after every sequence of `set` calls, with
`set` tearing down all existing edges of key and value first.  The code
violates this: in the both-present branch, `TwoWayDict.__setitem__` calls
`disconnect(key, value)` on the NEW pair instead of on the current partners,
leaving stale reverse edges.  After `t["a"]="b"; t["c"]="d"; t["a"]="c"` on a
fresh `TwoWayDict`, the final state is `C1state`, where `t["b"] == "a"` but
`t["a"] == "c" ≠ "b"`.  This theorem evaluates the embedded code at that
failing input. -/
theorem C1_bijective_invariant_failure :
    (twSet [] (PyVal.str "a") (PyVal.str "b")).bind
        (fun d1 => (twSet d1 (PyVal.str "c") (PyVal.str "d")).bind
          (fun d2 => twSet d2 (PyVal.str "a") (PyVal.str "c")))
      = Except.ok C1state
    ∧ twGetVal C1state (PyVal.str "b") = Except.ok (PyVal.str "a")
    ∧ twGetVal C1state (PyVal.str "a") = Except.ok (PyVal.str "c")
    ∧ PyVal.str "c" ≠ PyVal.str "b" := by
  refine ⟨by decide, by decide, by decide, by decide⟩

/-- C2 counterexample: after `set("key", "value")` on a fresh `GraphDict`,
`"key"` has exactly one stored position, yet `get("key")` returns the
one-element SET `{"value"}`, not the scalar `"value"` the claim requires. -/
theorem C2_single_target_counterexample :
    gSet [] (PyVal.str "key") (PyVal.str "value")
        = Except.ok [(PyVal.str "value", ∅), (PyVal.str "key", {0})]
    ∧ (edgesOf [(PyVal.str "value", ∅), (PyVal.str "key", {0})] (PyVal.str "key")).card = 1
    ∧ gGet [(PyVal.str "value", ∅), (PyVal.str "key", {0})] (PyVal.str "key")
        = Except.ok (PyRet.vset {PyVal.str "value"})
    ∧ gGet [(PyVal.str "value", ∅), (PyVal.str "key", {0})] (PyVal.str "key")
        ≠ Except.ok (PyRet.scalar (PyVal.str "value")) := by
  refine ⟨by decide, by decide, by decide, by decide⟩

/-- C2 (amended): `GraphDict.__getitem__` returns `None` exactly when the
outgoing set is empty, otherwise the SET of target nodes — even when the
outgoing set has exactly one position (then a one-element set); it never
returns a bare scalar, and an absent key raises `KeyError`. -/
theorem C2_get_shape (d : GD) (k : PyVal) :
    (¬ hasNode d k → gGet d k = Except.error PyErr.keyError)
    ∧ (hasNode d k → edgesOf d k = ∅ → gGet d k = Except.ok PyRet.pnone)
    ∧ (hasNode d k → edgesOf d k ≠ ∅ →
        gGet d k = Except.ok (PyRet.vset ((edgesOf d k).image (nodeAt d))))
    ∧ (∀ v : PyVal, gGet d k ≠ Except.ok (PyRet.scalar v))
    ∧ (hasNode d k → (edgesOf d k).card = 1 →
        ∃ v : PyVal, gGet d k = Except.ok (PyRet.vset {v})) := by
  refine ⟨?_, ?_, ?_, ?_, ?_⟩
  · intro h
    simp [gGet, h]
  · intro h he
    simp [gGet, h, resolveTargets, he]
  · intro h he
    simp [gGet, h, resolveTargets, he]
  · intro v
    by_cases h : hasNode d k
    · by_cases he : edgesOf d k = ∅ <;> simp [gGet, h, resolveTargets, he]
    · simp [gGet, h]
  · intro h hcard
    rcases Finset.card_eq_one.mp hcard with ⟨t, ht⟩
    refine ⟨nodeAt d t, ?_⟩
    simp [gGet, h, resolveTargets, ht]

theorem C2_get_shape_witness :
    hasNode [(PyVal.int 1, ({0} : Finset ℕ))] (PyVal.int 1)
    ∧ edgesOf [(PyVal.int 1, ({0} : Finset ℕ))] (PyVal.int 1) ≠ ∅
    ∧ gGet [(PyVal.int 1, ({0} : Finset ℕ))] (PyVal.int 1)
        = Except.ok (PyRet.vset ((edgesOf [(PyVal.int 1, ({0} : Finset ℕ))]
            (PyVal.int 1)).image (nodeAt [(PyVal.int 1, ({0} : Finset ℕ))]))) :=
  ⟨by decide, by decide,
    (C2_get_shape [(PyVal.int 1, ({0} : Finset ℕ))] (PyVal.int 1)).2.2.1
      (by decide) (by decide)⟩

/-- C3: on a well-formed state, `reindex` purges exactly the lone nodes
(empty outgoing set and no incoming edge); reading a purged node afterwards
raises `KeyError`; every surviving edge target is decreased by the number of
preceding purged positions, so each surviving edge resolves to the same node
value as before; and afterwards no node is lone. -/
theorem C3_reindex_correct {d : GD} (hwf : wfd d) :
    (∀ k, hasNode d k → (hasNode (reindex d) k ↔ ¬ isLone d k))
    ∧ (∀ k, hasNode d k → isLone d k → gGet (reindex d) k = Except.error PyErr.keyError)
    ∧ (∀ k, hasNode d k → ¬ isLone d k →
        edgesOf (reindex d) k = (edgesOf d k).image (fun t => t - countLoneLt d t)
        ∧ (edgesOf (reindex d) k).image (nodeAt (reindex d))
            = (edgesOf d k).image (nodeAt d))
    ∧ (∀ k, hasNode (reindex d) k → ¬ isLone (reindex d) k) := by
  refine ⟨?_, ?_, ?_, reindex_no_lone hwf⟩
  · intro k hk
    constructor
    · intro hk' hlone
      exact reindex_purged hwf hk ((isLone_iff hwf.1 hk).mp hlone) hk'
    · intro hnl
      exact (reindex_survivor hwf hk (fun hc => hnl ((isLone_iff hwf.1 hk).mpr hc))).1
  · intro k hk hlone
    have hp := reindex_purged hwf hk ((isLone_iff hwf.1 hk).mp hlone)
    simp [gGet, hp]
  · intro k hk hnl
    have hsurv : pos d k ∉ loneF d := fun hc => hnl ((isLone_iff hwf.1 hk).mpr hc)
    exact ⟨(reindex_survivor hwf hk hsurv).2.2, reindex_resolve hwf hk hsurv⟩

theorem C3_reindex_correct_witness :
    wfd [(PyVal.int 1, (∅ : Finset ℕ)), (PyVal.int 2, ∅), (PyVal.int 3, {2})]
    ∧ hasNode [(PyVal.int 1, (∅ : Finset ℕ)), (PyVal.int 2, ∅), (PyVal.int 3, {2})] (PyVal.int 1)
    ∧ isLone [(PyVal.int 1, (∅ : Finset ℕ)), (PyVal.int 2, ∅), (PyVal.int 3, {2})] (PyVal.int 1)
    ∧ gGet (reindex [(PyVal.int 1, (∅ : Finset ℕ)), (PyVal.int 2, ∅), (PyVal.int 3, {2})])
        (PyVal.int 1) = Except.error PyErr.keyError :=
  ⟨by decide, by decide, by decide,
    (C3_reindex_correct (by decide)).2.1 (PyVal.int 1) (by decide) (by decide)⟩

/-- C4: `reindex` is idempotent on every well-formed state: running it twice
equals running it once. -/
theorem C4_reindex_idempotent {d : GD} (hwf : wfd d) :
    reindex (reindex d) = reindex d :=
  reindex_of_lone_nil (loneList_reindex_nil hwf)

theorem C4_reindex_idempotent_witness :
    wfd [(PyVal.int 1, (∅ : Finset ℕ)), (PyVal.int 2, ∅), (PyVal.int 3, {2})]
    ∧ reindex (reindex [(PyVal.int 1, (∅ : Finset ℕ)), (PyVal.int 2, ∅), (PyVal.int 3, {2})])
        = reindex [(PyVal.int 1, (∅ : Finset ℕ)), (PyVal.int 2, ∅), (PyVal.int 3, {2})] :=
  ⟨by decide, C4_reindex_idempotent (by decide)⟩

/-- C5: after any sequence of `set`, `delete_link`, and `disconnect` calls on
a fresh `GraphDict`, every position stored in any outgoing set is in range —
the position of a present node — so every node obtained by resolving `get`
on a live key is itself a key present in the container. -/
theorem C5_no_dangling_positions (ops : List GOp) :
    ∀ e ∈ applyOps ops, ∀ t ∈ e.2,
      t < (applyOps ops).length
      ∧ hasNode (applyOps ops) (nodeAt (applyOps ops) t) := by
  intro e he t ht
  have h1 := targetsBounded_applyOps ops e he t ht
  exact ⟨h1, nodeAt_mem h1⟩

theorem C5_no_dangling_positions_witness :
    (PyVal.int 1, ({0} : Finset ℕ)) ∈ applyOps [GOp.setOp (PyVal.int 1) (PyVal.int 2)]
    ∧ 0 ∈ ({0} : Finset ℕ)
    ∧ (0 < (applyOps [GOp.setOp (PyVal.int 1) (PyVal.int 2)]).length
        ∧ hasNode (applyOps [GOp.setOp (PyVal.int 1) (PyVal.int 2)])
            (nodeAt (applyOps [GOp.setOp (PyVal.int 1) (PyVal.int 2)]) 0)) :=
  ⟨by decide, by decide,
    C5_no_dangling_positions [GOp.setOp (PyVal.int 1) (PyVal.int 2)]
      (PyVal.int 1, ({0} : Finset ℕ)) (by decide) 0 (by decide)⟩

/-- C6 counterexample: `TwoWayDict.__setitem__` performs no `None`-key check
(unlike `GraphDict.__setitem__`), so `t[None] = "a"` succeeds instead of
raising `TypeError` as the claim requires. -/
theorem C6_none_key_counterexample :
    twSet [] PyVal.none (PyVal.str "a")
        = Except.ok [(PyVal.str "a", {1}), (PyVal.none, {0})]
    ∧ twSet [] PyVal.none (PyVal.str "a") ≠ Except.error PyErr.typeError := by
  refine ⟨by decide, by decide⟩

/-- C6 (amended): `GraphDict.set` raises `TypeError` exactly when key or
value is non-hashable or the key is `None`; `TwoWayDict.set` raises exactly
when key or value is non-hashable (a `None` key is accepted).  In both
containers `TypeError` is the only raised error and a raising call leaves the
container unchanged (the checks precede every mutation). -/
theorem C6_typeerror_conditions (d : GD) (k v : PyVal) :
    (gSet d k v = Except.error PyErr.typeError
      ↔ (k.hashable = false ∨ v.hashable = false ∨ k = PyVal.none))
    ∧ (twSet d k v = Except.error PyErr.typeError
      ↔ (k.hashable = false ∨ v.hashable = false))
    ∧ (∀ e : PyErr, gSet d k v = Except.error e → e = PyErr.typeError)
    ∧ (∀ e : PyErr, twSet d k v = Except.error e → e = PyErr.typeError)
    ∧ (gSet d k v = Except.error PyErr.typeError → applyOp d (GOp.setOp k v) = d)
    ∧ (twSet d k v = Except.error PyErr.typeError → twApplySet d k v = d) := by
  by_cases hn : k = PyVal.none
  · subst hn
    have hnh : PyVal.none.hashable = true := rfl
    cases hv : v.hashable <;>
      simp [gSet, twSet, twApplySet, applyOp, hv, hnh]
  · cases hk : k.hashable <;> cases hv : v.hashable <;>
      simp [gSet, twSet, twApplySet, applyOp, hk, hv, hn]

theorem C6_typeerror_conditions_witness :
    gSet [] (PyVal.unhashable 0) (PyVal.int 1) = Except.error PyErr.typeError :=
  (C6_typeerror_conditions [] (PyVal.unhashable 0) (PyVal.int 1)).1.mpr
    (Or.inl (by decide))

/-- C7: on a well-formed state, `pop(key)` for a present key returns exactly
the value `get(key)` would have returned immediately before the call,
computing get, then soft delete, then compaction; afterwards the key is
absent and reading it raises `KeyError`. -/
theorem C7_pop_spec {d : GD} (hwf : wfd d) {key : PyVal} (hk : hasNode d key) :
    ∃ r : PyRet, gGet d key = Except.ok r
      ∧ gPop d key = Except.ok (r, reindex (gDel d key))
      ∧ ¬ hasNode (reindex (gDel d key)) key
      ∧ gGet (reindex (gDel d key)) key = Except.error PyErr.keyError := by
  have hwf1 := wfd_gDel hwf hk
  have hk1 : hasNode (gDel d key) key := by
    rw [hasNode, nodes_gDel hk]
    exact hk
  have hpurged : ¬ hasNode (reindex (gDel d key)) key :=
    reindex_purged hwf1 hk1 (lone_gDel hwf hk)
  have hok : gGet d key = Except.ok (resolveTargets d (edgesOf d key)) := by
    simp [gGet, hk]
  refine ⟨resolveTargets d (edgesOf d key), hok, ?_, hpurged, by simp [gGet, hpurged]⟩
  unfold gPop
  rw [hok]

theorem C7_pop_spec_witness :
    wfd [(PyVal.int 1, ({0} : Finset ℕ))]
    ∧ hasNode [(PyVal.int 1, ({0} : Finset ℕ))] (PyVal.int 1)
    ∧ ∃ r : PyRet, gGet [(PyVal.int 1, ({0} : Finset ℕ))] (PyVal.int 1) = Except.ok r
        ∧ gPop [(PyVal.int 1, ({0} : Finset ℕ))] (PyVal.int 1)
            = Except.ok (r, reindex (gDel [(PyVal.int 1, ({0} : Finset ℕ))] (PyVal.int 1)))
        ∧ ¬ hasNode (reindex (gDel [(PyVal.int 1, ({0} : Finset ℕ))] (PyVal.int 1))) (PyVal.int 1)
        ∧ gGet (reindex (gDel [(PyVal.int 1, ({0} : Finset ℕ))] (PyVal.int 1))) (PyVal.int 1)
            = Except.error PyErr.keyError :=
  ⟨by decide, by decide, C7_pop_spec (by decide) (by decide)⟩

/-- C8: the concrete scenario on a fresh `GraphDict`: three `set` calls on
"key" accumulate the three values; `delete_link` removes one edge;
`disconnect` removes the mutual edges with "value3" leaving `get("value3")`
as None; `reindex` then compacts so `get_dict()` is `{"key": {"value2"}}`
and reading "value3" raises `KeyError`. -/
theorem C8_scenario :
    gGet (applyOps [GOp.setOp (PyVal.str "key") (PyVal.str "value"),
        GOp.setOp (PyVal.str "key") (PyVal.str "value2"),
        GOp.setOp (PyVal.str "key") (PyVal.str "value3")]) (PyVal.str "key")
      = Except.ok (PyRet.vset {PyVal.str "value", PyVal.str "value2", PyVal.str "value3"})
    ∧ gGet (applyOps [GOp.setOp (PyVal.str "key") (PyVal.str "value"),
        GOp.setOp (PyVal.str "key") (PyVal.str "value2"),
        GOp.setOp (PyVal.str "key") (PyVal.str "value3"),
        GOp.delLinkOp (PyVal.str "key") (PyVal.str "value")]) (PyVal.str "key")
      = Except.ok (PyRet.vset {PyVal.str "value2", PyVal.str "value3"})
    ∧ (gGet (applyOps [GOp.setOp (PyVal.str "key") (PyVal.str "value"),
        GOp.setOp (PyVal.str "key") (PyVal.str "value2"),
        GOp.setOp (PyVal.str "key") (PyVal.str "value3"),
        GOp.delLinkOp (PyVal.str "key") (PyVal.str "value"),
        GOp.disconnectOp (PyVal.str "key") (PyVal.str "value3")]) (PyVal.str "key")
      = Except.ok (PyRet.vset {PyVal.str "value2"})
    ∧ gGet (applyOps [GOp.setOp (PyVal.str "key") (PyVal.str "value"),
        GOp.setOp (PyVal.str "key") (PyVal.str "value2"),
        GOp.setOp (PyVal.str "key") (PyVal.str "value3"),
        GOp.delLinkOp (PyVal.str "key") (PyVal.str "value"),
        GOp.disconnectOp (PyVal.str "key") (PyVal.str "value3")]) (PyVal.str "value3")
      = Except.ok PyRet.pnone)
    ∧ (get_dict (reindex (applyOps [GOp.setOp (PyVal.str "key") (PyVal.str "value"),
        GOp.setOp (PyVal.str "key") (PyVal.str "value2"),
        GOp.setOp (PyVal.str "key") (PyVal.str "value3"),
        GOp.delLinkOp (PyVal.str "key") (PyVal.str "value"),
        GOp.disconnectOp (PyVal.str "key") (PyVal.str "value3")]))
      = [(PyVal.str "key", PyRet.vset {PyVal.str "value2"})]
    ∧ gGet (reindex (applyOps [GOp.setOp (PyVal.str "key") (PyVal.str "value"),
        GOp.setOp (PyVal.str "key") (PyVal.str "value2"),
        GOp.setOp (PyVal.str "key") (PyVal.str "value3"),
        GOp.delLinkOp (PyVal.str "key") (PyVal.str "value"),
        GOp.disconnectOp (PyVal.str "key") (PyVal.str "value3")])) (PyVal.str "value3")
      = Except.error PyErr.keyError) := by
  refine ⟨by decide, by decide, ⟨by decide, by decide⟩, ⟨by decide, by decide⟩⟩

/-- C9: `popitem()` on a non-empty container with distinct keys takes the
most-recently-inserted node, returns it paired with the value `get` would
have returned before the call, and removes that node's entry while
discarding its position from every remaining set — with no compaction: every
other node survives with its position unchanged and its stored set merely
loses the popped position. -/
theorem C9_popitem_spec {d : GD} (hnd : (nodes d).Nodup) (hne : d ≠ []) :
    ∃ r : PyRet,
      gGet d (nodeAt d (d.length - 1)) = Except.ok r
      ∧ gPopitem d = Except.ok ((nodeAt d (d.length - 1), r),
          (d.dropLast).map (fun e => (e.1, e.2.erase (d.length - 1))))
      ∧ nodes ((d.dropLast).map (fun e => (e.1, e.2.erase (d.length - 1))))
          = (nodes d).dropLast
      ∧ (∀ x, hasNode ((d.dropLast).map (fun e => (e.1, e.2.erase (d.length - 1)))) x →
          pos ((d.dropLast).map (fun e => (e.1, e.2.erase (d.length - 1)))) x = pos d x)
      ∧ ∀ j, j < d.length - 1 →
          entryAt ((d.dropLast).map (fun e => (e.1, e.2.erase (d.length - 1)))) j
            = ((entryAt d j).1, (entryAt d j).2.erase (d.length - 1)) := by
  have hlen0 : 0 < d.length := List.length_pos.mpr hne
  have hklt : d.length - 1 < d.length := by omega
  have hk : hasNode d (nodeAt d (d.length - 1)) := nodeAt_mem hklt
  have hok : gGet d (nodeAt d (d.length - 1))
      = Except.ok (resolveTargets d (edgesOf d (nodeAt d (d.length - 1)))) := by
    simp [gGet, hk]
  have hnodesmap := nodes_map_snd (d.dropLast) (fun s => s.erase (d.length - 1))
  refine ⟨resolveTargets d (edgesOf d (nodeAt d (d.length - 1))), hok, ?_, ?_, ?_, ?_⟩
  · have hnodesne : nodes d ≠ [] := by
      intro hc
      have hlnodes := length_nodes d
      rw [hc] at hlnodes
      simp at hlnodes
      omega
    have hlast : (nodes d).getLast? = some (nodeAt d (d.length - 1)) := by
      have h1 := getLast?_eq_getD PyVal.none hnodesne
      rw [length_nodes] at h1
      exact h1
    have hdel : pyDelItem d (nodeAt d (d.length - 1)) = d.dropLast := by
      rw [pyDelItem_eq_eraseIdx hk, pos_nodeAt hnd hklt]
      exact eraseIdx_last hne
    rw [gPopitem_eq hlast hok, hdel]
  · rw [hnodesmap, nodes_dropLast]
  · intro x hx
    have h1 : pos ((d.dropLast).map (fun e => (e.1, e.2.erase (d.length - 1)))) x
        = pos (d.dropLast) x := pos_congr_nodes hnodesmap x
    rw [h1]
    have hx' : hasNode (d.dropLast) x := by
      rw [hasNode, ← hnodesmap]
      exact hx
    conv_rhs => rw [← dropLast_append_entryAt hne]
    exact (pos_append_of_mem hx' _).symm
  · intro j hj
    have hjlt : j < (d.dropLast).length := by
      rw [List.length_dropLast]
      exact hj
    have h1 := @entryAt_map_snd (d.dropLast) (fun s => s.erase (d.length - 1)) j hjlt
    exact h1.trans (by rw [entryAt_dropLast hne hj])

theorem C9_popitem_spec_witness :
    (nodes [(PyVal.int 1, ({0} : Finset ℕ))]).Nodup
    ∧ [(PyVal.int 1, ({0} : Finset ℕ))] ≠ ([] : GD)
    ∧ ∃ r : PyRet,
      gGet [(PyVal.int 1, ({0} : Finset ℕ))]
          (nodeAt [(PyVal.int 1, ({0} : Finset ℕ))]
            ([(PyVal.int 1, ({0} : Finset ℕ))].length - 1)) = Except.ok r
      ∧ gPopitem [(PyVal.int 1, ({0} : Finset ℕ))]
          = Except.ok ((nodeAt [(PyVal.int 1, ({0} : Finset ℕ))]
              ([(PyVal.int 1, ({0} : Finset ℕ))].length - 1), r),
            ([(PyVal.int 1, ({0} : Finset ℕ))].dropLast).map
              (fun e => (e.1, e.2.erase ([(PyVal.int 1, ({0} : Finset ℕ))].length - 1))))
      ∧ nodes (([(PyVal.int 1, ({0} : Finset ℕ))].dropLast).map
            (fun e => (e.1, e.2.erase ([(PyVal.int 1, ({0} : Finset ℕ))].length - 1))))
          = (nodes [(PyVal.int 1, ({0} : Finset ℕ))]).dropLast
      ∧ (∀ x, hasNode (([(PyVal.int 1, ({0} : Finset ℕ))].dropLast).map
            (fun e => (e.1, e.2.erase ([(PyVal.int 1, ({0} : Finset ℕ))].length - 1)))) x →
          pos (([(PyVal.int 1, ({0} : Finset ℕ))].dropLast).map
            (fun e => (e.1, e.2.erase ([(PyVal.int 1, ({0} : Finset ℕ))].length - 1)))) x
            = pos [(PyVal.int 1, ({0} : Finset ℕ))] x)
      ∧ ∀ j, j < [(PyVal.int 1, ({0} : Finset ℕ))].length - 1 →
          entryAt (([(PyVal.int 1, ({0} : Finset ℕ))].dropLast).map
            (fun e => (e.1, e.2.erase ([(PyVal.int 1, ({0} : Finset ℕ))].length - 1)))) j
            = ((entryAt [(PyVal.int 1, ({0} : Finset ℕ))] j).1,
                (entryAt [(PyVal.int 1, ({0} : Finset ℕ))] j).2.erase
                  ([(PyVal.int 1, ({0} : Finset ℕ))].length - 1)) :=
  ⟨by decide, by decide, C9_popitem_spec (by decide) (by decide)⟩

/-- C10: on any state in which `None` is not a node (true of every reachable
`GraphDict`) and the present key is hashable (true of every stored key),
`set(key, None)` for a key already present falls into the `pass` branch and
returns the container completely unchanged. -/
theorem C10_set_none_noop {d : GD} {key : PyVal} (hk : hasNode d key)
    (hkh : key.hashable = true) (hnone : ¬ hasNode d PyVal.none) :
    gSet d key PyVal.none = Except.ok d := by
  have hkn : ¬ (key = PyVal.none) := fun hc => hnone (hc ▸ hk)
  have hnh : PyVal.none.hashable = true := rfl
  simp [gSet, gSetCore, hkh, hk, hnone, hkn, hnh]

theorem C10_set_none_noop_witness :
    hasNode [(PyVal.int 1, (∅ : Finset ℕ))] (PyVal.int 1)
    ∧ (PyVal.int 1).hashable = true
    ∧ ¬ hasNode [(PyVal.int 1, (∅ : Finset ℕ))] PyVal.none
    ∧ gSet [(PyVal.int 1, (∅ : Finset ℕ))] (PyVal.int 1) PyVal.none
        = Except.ok [(PyVal.int 1, (∅ : Finset ℕ))] :=
  ⟨by decide, by decide, by decide, C10_set_none_noop (by decide) (by decide) (by decide)⟩

end ThoseDicts
